import Mathlib

/-!
File organizer and benchmark functions: a verification development.

Shallow embedding of

* `internal/classifier/classifier.go` (`DefaultMappings`, `NewClassifier`, `Classify`),
* `internal/fileops/mover.go` (`FileMover.MoveFile`),
* `internal/app/app.go` (`App.Run`, `App.processFile`),
* `12-testing/benchmark-tests/bench.go` (`Fibonacci`, `FibonacciIterative`).

Go strings are Lean `String`s (valid UTF-8; the byte scans of the Go library look
for the ASCII bytes `.` and `/` only, so scanning code points finds the same
positions). The path separator is that of a Unix build, `/`.
-/

set_option autoImplicit false

/-! ## The parts of package `strings` and `path/filepath` the program calls -/

namespace strings

/-- Go's `unicode.ToLower` on one code point. Below `0x80` the library does the ASCII
arithmetic (`'A'..'Z'` plus 32); above, it consults the Unicode case tables, which
are the parameter `tbl`. -/
def toLowerRune (tbl : Char → Char) (c : Char) : Char :=
  if c.toNat < 128 then c.toLower else tbl c

/-- Go's `strings.ToLower`: every code point mapped by `unicode.ToLower`. -/
def ToLower (tbl : Char → Char) (s : String) : String :=
  ⟨s.data.map (toLowerRune tbl)⟩

/-- Go's `strings.HasPrefix s p`: `s` starts with `p`. -/
def HasPrefix (s p : String) : Bool :=
  p.data.isPrefixOf s.data

/-- Go's `strings.TrimSuffix s suffix`: `s` without the trailing `suffix`, or `s` itself
when it does not end in `suffix`. -/
def TrimSuffix (s suffix : String) : String :=
  if suffix.data.isSuffixOf s.data then ⟨s.data.take (s.data.length - suffix.data.length)⟩ else s

/-- The code points `ToLower` leaves alone whatever the case tables say: ASCII
other than `'A'..'Z'`. -/
def isLowerASCII (s : String) : Bool :=
  s.data.all (fun c => decide (c.toNat < 128) && decide (c.toLower = c))

end strings

namespace filepath

/-- The loop of `filepath.Ext`, run over the reversed path: `acc` is the part of the
path already passed (to the right of the cursor). The loop stops with the empty
string at a separator, and with the suffix starting at the dot when it meets a dot. -/
def extScan : List Char → List Char → List Char
  | [], _ => []
  | c :: rest, acc =>
    if c = '/' then []
    else if c = '.' then '.' :: acc
    else extScan rest (c :: acc)

/-- Go's `filepath.Ext`: the suffix beginning at the final dot in the final element of
`path`; empty if there is no dot. -/
def Ext (path : String) : String :=
  ⟨extScan path.data.reverse []⟩

/-- A name a directory entry can bear: not empty, not `.` or `..`, no separator. -/
def ValidName (name : String) : Prop :=
  name ≠ "" ∧ name ≠ "." ∧ name ≠ ".." ∧ '/' ∉ name.data

instance (name : String) : Decidable (ValidName name) := by
  unfold ValidName; infer_instance

end filepath

/-! ## Package `classifier` -/

namespace classifier

/-- The declaration `type Category string`. -/
abbrev Category := String

def Images : Category := "Images"
def Documents : Category := "Documents"
def Audio : Category := "Audio"
def Video : Category := "Video"
def Archives : Category := "Archives"
def Code : Category := "Code"
def Executables : Category := "Executables"
def Fonts : Category := "Fonts"
def Others : Category := "Others"

/-- The table `DefaultMappings`, the entries of the map literal in source order. -/
def DefaultMappings : List (String × List String) :=
  [ (Images, [".jpg", ".jpeg", ".png", ".gif", ".bmp", ".svg", ".webp", ".tiff", ".ico", ".raw", ".heic"]),
    (Documents, [".pdf", ".doc", ".docx", ".txt", ".rtf", ".odt", ".xls", ".xlsx", ".ppt", ".pptx", ".csv", ".md", ".epub"]),
    (Audio, [".mp3", ".wav", ".flac", ".aac", ".ogg", ".m4a", ".wma", ".aiff"]),
    (Video, [".mp4", ".avi", ".mkv", ".mov", ".wmv", ".flv", ".webm", ".m4v", ".mpeg", ".mpg"]),
    (Archives, [".zip", ".rar", ".7z", ".tar", ".gz", ".bz2", ".xz", ".iso", ".tgz"]),
    (Code, [".go", ".py", ".js", ".html", ".css", ".java", ".cpp", ".c", ".h", ".ts", ".json", ".xml", ".sql", ".sh", ".bat", ".php", ".rb", ".pl"]),
    (Executables, [".exe", ".msi", ".apk", ".app", ".dmg", ".deb", ".rpm", ".bin", ".jar"]),
    (Fonts, [".ttf", ".otf", ".woff", ".woff2"]) ]

/-- A Go `map[string]Category`: what a lookup returns for each key. -/
abbrev ExtMap := String → Option Category

/-- The assignment `m[k] = v`. -/
def mapSet (m : ExtMap) (k : String) (v : Category) : ExtMap :=
  fun x => if x = k then some v else m x

/-- The classifier: `type Classifier struct { extMap map[string]Category }`. -/
structure Classifier where
  extMap : ExtMap

/-- The constructor `NewClassifier`. The `range` over the map `DefaultMappings` visits its entries in
an order the language leaves open; `order` is the order taken (a permutation of
`DefaultMappings`). The inner `range` is over a slice and goes left to right. -/
def NewClassifier (tbl : Char → Char) (order : List (String × List String)) : Classifier :=
  ⟨order.foldl
    (fun extMap ce => ce.2.foldl (fun extMap ext => mapSet extMap (strings.ToLower tbl ext) ce.1) extMap)
    (fun _ => none)⟩

/-- The method `Classifier.Classify`. -/
def Classify (tbl : Char → Char) (c : Classifier) (filename : String) : Category :=
  let ext := strings.ToLower tbl (filepath.Ext filename)
  match c.extMap ext with
  | some cat => cat
  | none => Others

/-- One pass of the inner loop of `NewClassifier`. -/
def addExtensions (tbl : Char → Char) (m : ExtMap) (ce : String × List String) : ExtMap :=
  ce.2.foldl (fun extMap ext => mapSet extMap (strings.ToLower tbl ext) ce.1) m

end classifier


/-! ## Package `benchmark` (`12-testing/benchmark-tests/bench.go`) -/

namespace benchmark

/-- The largest Go `int` on a 64-bit platform, `math.MaxInt64`. -/
def maxInt : Int := 9223372036854775807

/-- The value of a 64-bit two's-complement register holding the mathematical
integer `x`: reduction modulo `2^64` into `[-2^63, 2^63)`. -/
def wrap (x : Int) : Int :=
  (x + 9223372036854775808) % 18446744073709551616 - 9223372036854775808

/-- Go's `+` on `int`. -/
def addInt (a b : Int) : Int := wrap (a + b)

/-- The function `Fibonacci`, the recursive function. The arguments `n-1` and `n-2` are computed
only when `n > 1`, where the subtraction cannot overflow. -/
def Fibonacci (n : Int) : Int :=
  if n ≤ 1 then n
  else addInt (Fibonacci (n - 1)) (Fibonacci (n - 2))
termination_by n.toNat
decreasing_by
  all_goals simp_wf
  all_goals omega

/-- The `for i := 2; i <= n; i++` loop of `FibonacciIterative`: `fuel` bounds the
number of times the condition is tested; `none` when the fuel runs out before the
loop is left. The counter `i` is a Go `int`, so `i++` wraps. -/
def fibLoop (n : Int) : Nat → Int → Int → Int → Option Int
  | 0, _, _, _ => none
  | fuel + 1, i, prev, curr =>
    if i ≤ n then fibLoop n fuel (addInt i 1) curr (addInt prev curr)
    else some curr

/-- The function `FibonacciIterative`. -/
def FibonacciIterative (fuel : Nat) (n : Int) : Option Int :=
  if n ≤ 1 then some n
  else fibLoop n fuel 2 0 1

/-- The Fibonacci numbers as the documentation of both functions means them,
`F(0) = 0`, `F(1) = 1`, `F(k) = F(k-1) + F(k-2)`, the additions being Go `int`
additions. -/
def F : Nat → Int
  | 0 => 0
  | 1 => 1
  | k + 2 => addInt (F (k + 1)) (F k)

end benchmark

/-! ## The file system the program runs on

Paths are kept the way `filepath.Abs` and `filepath.Clean` leave them: absolute and
cleaned, as the list of their element names from the root (`/home/u/a.txt` is
`["home", "u", "a.txt"]`, the root is `[]`). A file-system state lists the objects
that exist, each under its path (the first entry for a path is the one in force),
together with what makes the kernel refuse a change that the shape of the tree would
allow: the mount points of other file systems, the file systems mounted read-only,
and the directories the process may not write in. Links and special files are not
part of the state. -/

namespace os

/-- A file-system object: a regular file with its bytes, or a directory. -/
inductive Node where
  | file (data : List Nat)
  | dir
  deriving DecidableEq, Repr

/-- The method `FileInfo.Size()`: the length of a regular file (for a directory the value is
system-dependent; no entry handed to a worker is one). -/
def Node.size : Node → Int
  | .file data => data.length
  | .dir => 0

/-- A cleaned absolute path, as its element names. -/
abbrev Path := List String

/-- The mounts and permissions: `mounts` lists the directories on which another file
system is mounted; a file system is named by its mount point (`[]` for the root file
system) and `readOnly` lists those mounted read-only; `noWrite` lists the directories
in which the process lacks the permission to create, remove or rename entries. -/
structure Env where
  mounts : List Path
  readOnly : List Path
  noWrite : List Path
  deriving DecidableEq, Repr

/-- A file-system state: the objects and the mounts and permissions. -/
structure FS where
  objects : List (Path × Node)
  env : Env
  deriving DecidableEq, Repr

/-- A list of objects stands for the state that holds them on one writable file
system: no mount point, nothing read-only, nothing write-protected. -/
instance : Coe (List (Path × Node)) FS :=
  ⟨fun objects => { objects := objects, env := { mounts := [], readOnly := [], noWrite := [] } }⟩

/-- The error numbers the calls below can report. -/
inductive Errno where
  | ENOENT | ENOTDIR | EISDIR | EEXIST | EINVAL | ENOTEMPTY | EBUSY | EACCES | EXDEV | EROFS
  deriving DecidableEq, Repr

deriving instance DecidableEq for Except

/-- The object recorded under `p`, if any. -/
def find : List (Path × Node) → Path → Option Node
  | [], _ => none
  | (q, n) :: rest, p => if q = p then some n else find rest p

/-- Go's `os.Stat` (and `os.Lstat`): the object at `p`, or `none` when the call fails
because nothing is there. The root always exists. -/
def Stat (fs : FS) (p : Path) : Option Node :=
  if p = [] then some Node.dir else find fs.objects p

/-- The state without the object at `p`. -/
def remove (fs : FS) (p : Path) : FS :=
  { fs with objects := fs.objects.filter (fun e => decide (e.1 ≠ p)) }

/-- The state with the object `n` at `p`. -/
def write (fs : FS) (p : Path) (n : Node) : FS :=
  { fs with objects := (p, n) :: (remove fs p).objects }

/-- The file system the directory `d` lies on: the longest mount point that is `d` or
above it, the root file system if there is none. -/
def deviceOf (env : Env) (d : Path) : Path :=
  env.mounts.foldl
    (fun best m => if m.isPrefixOf d && decide (best.length < m.length) then m else best) []

/-- Why the kernel refuses to create or remove an entry in the directory `d`, if it
does: `EROFS` on a read-only file system, `EACCES` without write permission. -/
def refused (env : Env) (d : Path) : Option Errno :=
  if deviceOf env d ∈ env.readOnly then some .EROFS
  else if d ∈ env.noWrite then some .EACCES
  else none

/-- Why the kernel refuses to rename `src` to `dst` although the tree would allow it,
if it does: `EXDEV` when the two directories lie on different file systems, else what
forbids the change in the one or the other directory. -/
def renameRefused (env : Env) (src dst : Path) : Option Errno :=
  if deviceOf env src.dropLast ≠ deviceOf env dst.dropLast then some .EXDEV
  else
    match refused env src.dropLast with
    | some e => some e
    | none => refused env dst.dropLast

/-- Go's `os.Mkdir`: `p` must not exist, its parent must be a directory, and the
kernel must allow a new entry there. -/
def Mkdir (fs : FS) (p : Path) : Except Errno FS :=
  match Stat fs p with
  | some _ => .error .EEXIST
  | none =>
    match Stat fs p.dropLast with
    | none => .error .ENOENT
    | some (.file _) => .error .ENOTDIR
    | some .dir =>
      match refused fs.env p.dropLast with
      | some e => .error e
      | none => .ok (write fs p .dir)

/-- The body of `os.MkdirAll`, `depth` bounding the recursion on the parent (the
library recurses only while the parent is not the root). The result is the error, if
any, and the state left behind. Fast path: an existing directory is success, an
existing file `ENOTDIR`. Slow path: make the parent, then `Mkdir`; when `Mkdir`
fails, succeed all the same if the directory is there. -/
def MkdirAllAux : Nat → FS → Path → Option Errno × FS
  | 0, fs, path =>
    match Stat fs path with
    | some .dir => (none, fs)
    | some (.file _) => (some .ENOTDIR, fs)
    | none =>
      match Mkdir fs path with
      | .ok fs2 => (none, fs2)
      | .error e => if Stat fs path = some .dir then (none, fs) else (some e, fs)
  | depth + 1, fs, path =>
    match Stat fs path with
    | some .dir => (none, fs)
    | some (.file _) => (some .ENOTDIR, fs)
    | none =>
      match MkdirAllAux depth fs path.dropLast with
      | (some e, fs1) => (some e, fs1)
      | (none, fs1) =>
        match Mkdir fs1 path with
        | .ok fs2 => (none, fs2)
        | .error e => if Stat fs1 path = some .dir then (none, fs1) else (some e, fs1)

/-- Go's `os.MkdirAll`: the error (`none` for `nil`) and the state left behind. -/
def MkdirAll (fs : FS) (path : Path) : Option Errno × FS :=
  MkdirAllAux (path.length - 1) fs path

/-- The path `p` after the tree at `src` has been re-rooted at `dst`. -/
def rebase (src dst p : Path) : Path :=
  if src.isPrefixOf p then dst ++ p.drop src.length else p

/-- The state with the tree at `src` re-rooted at `dst`: the objects, and the mounts
and permissions below `src` with them. -/
def moveTree (fs : FS) (src dst : Path) : FS :=
  { objects := fs.objects.map (fun e => (rebase src dst e.1, e.2))
    env :=
      { mounts := fs.env.mounts.map (rebase src dst)
        readOnly := fs.env.readOnly.map (rebase src dst)
        noWrite := fs.env.noWrite.map (rebase src dst) } }

/-- Go's `os.Rename` on Unix. The library first looks at the new name: when it is an
existing directory the call fails, with the old name's error if the old name does not
exist and with `EEXIST` otherwise. Then rename(2): both names in one file system, the
change allowed in both directories; a regular file replaces a regular file at `dst`;
a directory moves with all below it. -/
def Rename (fs : FS) (src dst : Path) : Except Errno FS :=
  match Stat fs src with
  | none => .error .ENOENT
  | some srcNode =>
    if Stat fs dst = some Node.dir then .error .EEXIST
    else if src = [] then .error .EBUSY
    else
      match Stat fs dst.dropLast with
      | none => .error .ENOENT
      | some (.file _) => .error .ENOTDIR
      | some .dir =>
        match renameRefused fs.env src dst with
        | some e => .error e
        | none =>
          if src = dst then .ok fs
          else
            match srcNode with
            | .file data => .ok (write (remove fs src) dst (.file data))
            | .dir =>
              if src ∈ fs.env.mounts then .error .EBUSY
              else if src.isPrefixOf dst then .error .EINVAL
              else if Stat fs dst ≠ none then .error .ENOTDIR
              else .ok (moveTree fs src dst)

/-- What the program cannot see in the file-system state: where the running
executable is and whether the call `os.Executable()` fails, the directories whose
listing is refused, whether a directory entry carries the `FileInfo` read with the
listing (`true`) or `Info` is a deferred `lstat` of the entry's path (`false`, the usual
case on Linux), which waiting task the next free worker receives, and what
`time.Now().UnixNano()` returns during the `k`-th `processFile`. -/
structure World where
  executable : Path
  executableFails : Bool
  unreadable : List Path
  eagerInfo : Bool
  pick : Nat → Nat
  clock : Nat → Int

/-- Go's `os.Executable()`: the path of the running executable, `none` for an error. -/
def Executable (w : World) : Option Path :=
  if w.executableFails then none else some w.executable

/-- An `os.DirEntry`: name, whether it is a directory, the directory it was read
from, and the size cached with the listing, if the platform caches it. -/
structure DirEntry where
  name : String
  isDir : Bool
  parent : Path
  cached : Option Int
  deriving DecidableEq, Repr

/-- The names of the objects directly inside `dir`, each once. A listing never
reports `.` or `..`, an empty name or a name holding a separator. -/
def childNames (fs : FS) (dir : Path) : List String :=
  ((((fs.objects.map Prod.fst).filter (fun p => decide (p ≠ [] ∧ p.dropLast = dir))).map
    (fun p => p.getLastD "")).filter (fun name => decide (filepath.ValidName name))).dedup

/-- Go's `os.ReadDir`. The library sorts the entries by name; the order is left as the
state gives it, since the workers take the tasks in an order of their own anyway. -/
def ReadDir (w : World) (fs : FS) (dir : Path) : Except Errno (List DirEntry) :=
  match Stat fs dir with
  | none => .error .ENOENT
  | some (.file _) => .error .ENOTDIR
  | some .dir =>
    if dir ∈ w.unreadable then .error .EACCES
    else .ok ((childNames fs dir).map (fun name =>
      { name := name
        isDir := decide (Stat fs (dir ++ [name]) = some Node.dir)
        parent := dir
        cached := if w.eagerInfo then (Stat fs (dir ++ [name])).map Node.size else none }))

/-- The call `DirEntry.Info().Size()` at the moment of the call: the cached value, or an
`lstat` of the path the entry was read at (`none` when that fails). -/
def DirEntry.Info (e : DirEntry) (fs : FS) : Option Int :=
  match e.cached with
  | some size => some size
  | none => (Stat fs (e.parent ++ [e.name])).map Node.size

end os

namespace filepath

/-- Go's `filepath.Base` of a cleaned absolute path: its last element, `/` for the root. -/
def Base (p : os.Path) : String :=
  p.getLastD "/"

/-- The elements of a path string, split at the separators. -/
def splitSep : List Char → List (List Char)
  | [] => [[]]
  | c :: rest =>
    if c = '/' then [] :: splitSep rest
    else
      match splitSep rest with
      | [] => [[c]]
      | hd :: tl => (c :: hd) :: tl

/-- What `filepath.Clean` does with one element of a rooted path: empty elements and
`.` are dropped, `..` removes the element before it (none at the root). -/
def cleanStep (p : os.Path) (c : String) : os.Path :=
  if c = "" ∨ c = "." then p
  else if c = ".." then p.dropLast
  else p ++ [c]

/-- Go's `filepath.Join dir elem` for a cleaned absolute `dir`: the cleaned form of
`dir + "/" + elem`. -/
def Join (dir : os.Path) (elem : String) : os.Path :=
  ((splitSep elem.data).map String.mk).foldl cleanStep dir

end filepath

/-! ## Package `fileops` (`internal/fileops/mover.go`) -/

namespace fileops

open os filepath strings

/-- The declaration `type FileMover struct { DryRun bool; Verbose bool }`. -/
structure FileMover where
  DryRun : Bool
  Verbose : Bool
  deriving DecidableEq, Repr

/-- The constructor `NewFileMover`. -/
def NewFileMover (dryRun verbose : Bool) : FileMover :=
  { DryRun := dryRun, Verbose := verbose }

/-- The two errors `MoveFile` wraps. -/
inductive MoveError where
  | createDirectory (e : Errno)
  | moveFile (e : Errno)
  deriving DecidableEq, Repr

/-- The call `fmt.Sprintf("%s_%d%s", nameWithoutExt, timestamp, ext)`. -/
def duplicateName (nameWithoutExt : String) (timestamp : Int) (ext : String) : String :=
  nameWithoutExt ++ "_" ++ toString timestamp ++ ext

/-- The method `FileMover.MoveFile`, on the file-system state `fs`; `now` is what
`time.Now().UnixNano()` returns if it is called. The result is the returned pair and
the state left behind. The `log.Printf` lines are not part of the state and are left
out. -/
def MoveFile (m : FileMover) (now : Int) (fs : FS) (srcPath destDir : Path) :
    Except MoveError Path × FS :=
  let fileName := Base srcPath
  let destPath := Join destDir fileName
  -- Ensure destination directory exists (unless dry run)
  match (if !m.DryRun then MkdirAll fs destDir else (none, fs)) with
  | (some e, fs1) => (.error (.createDirectory e), fs1)
  | (none, fs1) =>
    -- Check for duplicates
    let destPath :=
      match Stat fs1 destPath with
      | some _ =>
        let ext := Ext fileName
        let nameWithoutExt := TrimSuffix fileName ext
        let timestamp := now
        let newFileName := duplicateName nameWithoutExt timestamp ext
        Join destDir newFileName
      | none => destPath
    -- Perform the move
    if !m.DryRun then
      match Rename fs1 srcPath destPath with
      | .error e => (.error (.moveFile e), fs1)
      | .ok fs2 => (.ok destPath, fs2)
    else (.ok destPath, fs1)

end fileops

/-! ## Package `app` (`internal/app/app.go`)

The worker pool is modelled by its effect: every task sent on the channel is received
by exactly one worker, and the workers' `processFile` calls take effect one after the
other, in an order chosen by `World.pick`. The counters are `int64`; a directory
listing holds far fewer than `2^63` entries, so they are taken as integers. -/

namespace app

open os filepath strings classifier fileops

/-- The declaration `type Config struct`. -/
structure Config where
  SourceDir : Path
  DryRun : Bool
  Verbose : Bool

/-- The declaration `type Stats struct`, without the wall-clock `Duration`. -/
structure Stats where
  FilesMoved : Int
  FilesSkipped : Int
  FilesFailed : Int
  TotalSize : Int
  deriving DecidableEq, Repr

/-- The declaration `type App struct`. -/
structure App where
  Config : Config
  Classifier : Classifier
  Mover : FileMover

/-- The `fileTask` of `Run`. -/
structure fileTask where
  path : Path
  info : DirEntry
  deriving DecidableEq, Repr

/-- One `MoveFile` call as a worker made it: source, destination directory, and
whether it returned without error. -/
structure MoveCall where
  srcPath : Path
  destDir : Path
  succeeded : Bool
  deriving DecidableEq, Repr

/-- What the workers share: the file system, the counters, and (for the statements
below only) the record of the `MoveFile` calls made so far, latest first. -/
structure RunState where
  fs : FS
  stats : Stats
  calls : List MoveCall

/-- The method `App.processFile`; `now` is the clock reading available to its `MoveFile`. -/
def processFile (tbl : Char → Char) (a : App) (now : Int) (path : Path) (entry : DirEntry)
    (st : RunState) : RunState :=
  let cat := Classify tbl a.Classifier entry.name
  let destDir := Join a.Config.SourceDir cat
  match MoveFile a.Mover now st.fs path destDir with
  | (.error _, fs1) =>
    { fs := fs1
      stats := { st.stats with FilesFailed := st.stats.FilesFailed + 1 }
      calls := ⟨path, destDir, false⟩ :: st.calls }
  | (.ok _, fs1) =>
    let stats1 := { st.stats with FilesMoved := st.stats.FilesMoved + 1 }
    match entry.Info fs1 with
    | some size =>
      { fs := fs1
        stats := { stats1 with TotalSize := stats1.TotalSize + size }
        calls := ⟨path, destDir, true⟩ :: st.calls }
    | none =>
      { fs := fs1, stats := stats1, calls := ⟨path, destDir, true⟩ :: st.calls }

/-- The test of the scanning loop of `Run`: whether the entry is sent on the channel. -/
def isSent (w : World) (entry : DirEntry) : Bool :=
  if entry.isDir || HasPrefix entry.name "." then false
  else
    -- Skip the executable itself
    match Executable w with
    | some exePath => if Base exePath = entry.name then false else true
    | none => true

/-- The workers draining the channel: with `n` tasks waiting, the next free worker
receives the one `World.pick` names and runs `processFile` on it; `k` counts the
tasks already handled. -/
def drain (tbl : Char → Char) (a : App) (w : World) :
    Nat → Nat → List fileTask → RunState → RunState
  | 0, _, _, st => st
  | n + 1, k, waiting, st =>
    match waiting.get? (w.pick k % waiting.length) with
    | none => st
    | some task =>
      drain tbl a w n (k + 1) (waiting.eraseIdx (w.pick k % waiting.length))
        (processFile tbl a (w.clock k) task.path task.info st)

/-- The `processFile` calls of a list of tasks, one after the other, each with its
clock reading. -/
def runOrder (tbl : Char → Char) (a : App) (order : List (Int × fileTask)) (st : RunState) :
    RunState :=
  order.foldl (fun st x => processFile tbl a x.1 x.2.path x.2.info st) st

/-- The counters agree with the record of calls. -/
def Counted (st : RunState) : Prop :=
  st.stats.FilesMoved = (st.calls.countP (fun c => c.succeeded) : Nat) ∧
  st.stats.FilesFailed = (st.calls.countP (fun c => !c.succeeded) : Nat) ∧
  st.stats.FilesSkipped = 0

instance (st : RunState) : Decidable (Counted st) := by
  unfold Counted; infer_instance

/-- What the error tiers are about: the file system, the count of moves, the count of
failures, and the attempts made, latest first. -/
structure Tally where
  fs : FS
  moved : Int
  failed : Int
  attempts : List MoveCall

/-- One attempt as the error tiers word it, written from those words for comparison
with `processFile`: `MoveFile` is called once, on the task's path, with the category
directory of the task's name as destination; the file system is what that one call
leaves; a call that returns an error adds exactly 1 to the failures and nothing to the
moves, a call that returns without error exactly 1 to the moves and nothing to the
failures; the attempt is recorded with the outcome `MoveFile` had. -/
def attemptOnce (tbl : Char → Char) (a : App) (t : Tally) (x : Int × fileTask) : Tally :=
  match MoveFile a.Mover x.1 t.fs x.2.path
      (Join a.Config.SourceDir (Classify tbl a.Classifier x.2.info.name)) with
  | (.error _, fs1) =>
    { fs := fs1, moved := t.moved, failed := t.failed + 1
      attempts := ⟨x.2.path, Join a.Config.SourceDir (Classify tbl a.Classifier x.2.info.name),
        false⟩ :: t.attempts }
  | (.ok _, fs1) =>
    { fs := fs1, moved := t.moved + 1, failed := t.failed
      attempts := ⟨x.2.path, Join a.Config.SourceDir (Classify tbl a.Classifier x.2.info.name),
        true⟩ :: t.attempts }

/-- One attempt on each task of `order`, one after the other, from the state `fs` with
both counts at zero. -/
def attemptEach (tbl : Char → Char) (a : App) (order : List (Int × fileTask)) (fs : FS) : Tally :=
  order.foldl (attemptOnce tbl a) { fs := fs, moved := 0, failed := 0, attempts := [] }

/-- The errors `Run` returns. -/
inductive RunError where
  | accessSourceDirectory
  | notADirectory
  | readDirectory (e : Errno)
  deriving DecidableEq, Repr

/-- The tasks `Run` sends on the channel for a listing. -/
def tasksOf (a : App) (w : World) (entries : List DirEntry) : List fileTask :=
  (entries.filter (isSent w)).map (fun entry =>
    { path := Join a.Config.SourceDir entry.name, info := entry })

/-- The method `App.Run` started on the file-system state `fs`: the returned error or, for
`nil`, the statistics handed to `printSummary`; and the state of the run at return. -/
def Run (tbl : Char → Char) (a : App) (w : World) (fs : FS) : Except RunError Stats × RunState :=
  let start : RunState := { fs := fs, stats := ⟨0, 0, 0, 0⟩, calls := [] }
  -- Validate source directory
  match Stat fs a.Config.SourceDir with
  | none => (.error .accessSourceDirectory, start)
  | some (.file _) => (.error .notADirectory, start)
  | some .dir =>
    -- Walk directory and feed workers
    match ReadDir w fs a.Config.SourceDir with
    | .error e => (.error (.readDirectory e), start)
    | .ok entries =>
      let tasks := tasksOf a w entries
      let final := drain tbl a w tasks.length 0 tasks start
      (.ok final.stats, final)

/-- The application as `main` assembles it. -/
def mkApp (tbl : Char → Char) (order : List (String × List String)) (dir : Path)
    (dryRun verbose : Bool) : App :=
  { Config := { SourceDir := dir, DryRun := dryRun, Verbose := verbose }
    Classifier := NewClassifier tbl order
    Mover := NewFileMover dryRun verbose }

end app

/-! ## Concrete scenarios used in the statements below -/

namespace scenario

open os app classifier fileops

/-- Where the program is installed in most of the scenarios. -/
def installed : Path := ["usr", "local", "bin", "file-organizer"]

/-- A Linux-like environment with the executable at `executable`: `os.Executable`
succeeds, directory entries carry no cached `FileInfo`, every directory is readable,
the first waiting task is taken each time, the clock stands at `0`. -/
def world (executable : Path) : World :=
  { executable := executable, executableFails := false, unreadable := [], eagerInfo := false,
    pick := fun _ => 0, clock := fun _ => 0 }

/-- The program as `main` builds it, run on `/home`. All names in the scenarios
are ASCII, so the Unicode case tables play no part and `id` stands for them. -/
def organizer (dryRun : Bool) : App :=
  mkApp id DefaultMappings ["home"] dryRun false

/-- The directory of the end-to-end scenario: `report.pdf`, `photo.jpg`, `notes.txt`
and the hidden file `.env`. -/
def endToEnd : FS :=
  [ (["home"], Node.dir),
    (["home", "report.pdf"], Node.file [37, 80, 68, 70]),
    (["home", "photo.jpg"], Node.file [255, 216]),
    (["home", "notes.txt"], Node.file [104, 105, 10]),
    (["home", ".env"], Node.file [65, 61, 49]) ]

/-- A directory holding `a.png` and a regular file named `Images` (in the statement
that uses it, the running executable itself). -/
def blocked : FS :=
  [ (["home"], Node.dir),
    (["home", "Images"], Node.file [127, 69, 76, 70]),
    (["home", "a.png"], Node.file [137, 80]) ]

/-- A directory holding `a.txt` and a file `file-organizer.bin` (in the statement
that uses it, a file that merely shares its name with the executable installed
elsewhere). -/
def sameName : FS :=
  [ (["home"], Node.dir),
    (["home", "file-organizer.bin"], Node.file [127, 69]),
    (["home", "a.txt"], Node.file [104, 105]) ]

/-- A directory holding `a.txt` and the directory `Documents`, on which another file
system is mounted. -/
def otherDisk : FS :=
  { objects := [ (["home"], Node.dir), (["home", "Documents"], Node.dir),
                 (["home", "a.txt"], Node.file [104, 105]) ]
    env := { mounts := [["home", "Documents"]], readOnly := [], noWrite := [] } }

/-- A directory holding `a.txt`, in which the process may not create or remove
entries. -/
def writeProtected : FS :=
  { objects := [ (["home"], Node.dir), (["home", "a.txt"], Node.file [104, 105]) ]
    env := { mounts := [], readOnly := [], noWrite := [["home"]] } }

/-- A directory holding the single five-byte file `a.txt`. -/
def oneFile : FS :=
  [ (["home"], Node.dir),
    (["home", "a.txt"], Node.file [104, 101, 108, 108, 111]) ]

/-- A directory holding a subdirectory, a hidden file, a file with the executable's
name, and `x.mp3`. -/
def mixed : FS :=
  [ (["home"], Node.dir),
    (["home", "sub"], Node.dir),
    (["home", "sub", "inner.txt"], Node.file [1]),
    (["home", ".hidden"], Node.file [2]),
    (["home", "file-organizer"], Node.file [3]),
    (["home", "x.mp3"], Node.file [4, 5]) ]

/-- A directory holding `a.txt` and a regular file named `Others`. -/
def othersInTheWay : FS :=
  [ (["home"], Node.dir),
    (["home", "Others"], Node.file [1]),
    (["home", "a.txt"], Node.file [2]) ]

end scenario
/-! ## Facts about the string helpers -/

namespace strings

theorem toLowerRune_fixed (tbl : Char → Char) (c : Char)
    (h : (decide (c.toNat < 128) && decide (c.toLower = c)) = true) : toLowerRune tbl c = c := by
  simp only [Bool.and_eq_true, decide_eq_true_eq] at h
  simp [toLowerRune, h.1, h.2]

theorem map_toLowerRune_fixed (tbl : Char → Char) (l : List Char)
    (h : l.all (fun c => decide (c.toNat < 128) && decide (c.toLower = c)) = true) :
    l.map (toLowerRune tbl) = l := by
  induction l with
  | nil => rfl
  | cons c rest ih =>
    rw [List.all_cons, Bool.and_eq_true] at h
    rw [List.map_cons, toLowerRune_fixed tbl c h.1, ih h.2]

theorem ToLower_fixed (tbl : Char → Char) (s : String) (h : isLowerASCII s = true) :
    ToLower tbl s = s := by
  unfold ToLower
  rw [map_toLowerRune_fixed tbl s.data h]

end strings

namespace classifier

open strings filepath

theorem NewClassifier_eq (tbl : Char → Char) (order : List (String × List String)) :
    (NewClassifier tbl order).extMap = order.foldl (addExtensions tbl) (fun _ => none) := rfl

theorem inner_lookup (tbl : Char → Char) (cat : String) (exts : List String) (m : ExtMap)
    (k : String) :
    (exts.foldl (fun extMap ext => mapSet extMap (ToLower tbl ext) cat) m) k
      = if k ∈ exts.map (ToLower tbl) then some cat else m k := by
  induction exts generalizing m with
  | nil => simp
  | cons e rest ih =>
    rw [List.foldl_cons, ih]
    by_cases h1 : k ∈ rest.map (ToLower tbl)
    · simp [h1]
    · by_cases h2 : k = ToLower tbl e
      · simp [h1, h2, mapSet]
      · simp [h1, h2, mapSet]

theorem addExtensions_lookup (tbl : Char → Char) (m : ExtMap) (ce : String × List String)
    (k : String) :
    addExtensions tbl m ce k = if k ∈ ce.2.map (ToLower tbl) then some ce.1 else m k :=
  inner_lookup tbl ce.1 ce.2 m k

/-- A key no entry lists keeps the value it had before the loops. -/
theorem outer_lookup_absent (tbl : Char → Char) (L : List (String × List String)) (m : ExtMap)
    (k : String) (h : ∀ ce ∈ L, k ∉ ce.2.map (ToLower tbl)) :
    (L.foldl (addExtensions tbl) m) k = m k := by
  induction L generalizing m with
  | nil => rfl
  | cons ce rest ih =>
    rw [List.foldl_cons, ih _ (fun c hc => h c (List.mem_cons_of_mem _ hc)),
      addExtensions_lookup, if_neg (h ce (List.mem_cons_self _ _))]

/-- A key some entry lists ends up with the category of an entry that lists it. -/
theorem outer_lookup_present (tbl : Char → Char) (L : List (String × List String)) (m : ExtMap)
    (k : String) (h : ∃ ce ∈ L, k ∈ ce.2.map (ToLower tbl)) :
    ∃ ce ∈ L, k ∈ ce.2.map (ToLower tbl) ∧ (L.foldl (addExtensions tbl) m) k = some ce.1 := by
  induction L generalizing m with
  | nil => obtain ⟨ce, hce, _⟩ := h; cases hce
  | cons ce rest ih =>
    rw [List.foldl_cons]
    by_cases hr : ∃ c ∈ rest, k ∈ c.2.map (ToLower tbl)
    · obtain ⟨c, hc, hk, hv⟩ := ih (addExtensions tbl m ce) hr
      exact ⟨c, List.mem_cons_of_mem _ hc, hk, hv⟩
    · have hk : k ∈ ce.2.map (ToLower tbl) := by
        obtain ⟨c, hc, hk⟩ := h
        rcases List.mem_cons.1 hc with rfl | hc
        · exact hk
        · exact absurd ⟨c, hc, hk⟩ hr
      refine ⟨ce, List.mem_cons_self _ _, hk, ?_⟩
      rw [outer_lookup_absent tbl rest _ k (fun c hc hkc => hr ⟨c, hc, hkc⟩),
        addExtensions_lookup, if_pos hk]

theorem listed_isLowerASCII :
    ∀ ce ∈ DefaultMappings, ∀ x ∈ ce.2, isLowerASCII x = true := by decide

theorem listed_startsWithDot :
    ∀ ce ∈ DefaultMappings, ∀ x ∈ ce.2, HasPrefix x "." = true := by decide

theorem listed_disjoint :
    ∀ ce1 ∈ DefaultMappings, ∀ ce2 ∈ DefaultMappings, ce1.1 ≠ ce2.1 → ∀ x ∈ ce1.2, x ∉ ce2.2 := by
  decide

theorem listed_notOthers : ∀ ce ∈ DefaultMappings, ce.1 ≠ Others := by decide

theorem listed_lower (tbl : Char → Char) (ce : String × List String) (h : ce ∈ DefaultMappings) :
    ce.2.map (ToLower tbl) = ce.2 := by
  have : ∀ l : List String, (∀ x ∈ l, isLowerASCII x = true) → l.map (ToLower tbl) = l := by
    intro l
    induction l with
    | nil => intro _; rfl
    | cons x rest ih =>
      intro hx
      rw [List.map_cons, ToLower_fixed tbl x (hx x (List.mem_cons_self _ _)),
        ih (fun y hy => hx y (List.mem_cons_of_mem _ hy))]
  exact this ce.2 (listed_isLowerASCII ce h)

theorem listed_unique (ce1 ce2 : String × List String) (h1 : ce1 ∈ DefaultMappings)
    (h2 : ce2 ∈ DefaultMappings) (k : String) (hk1 : k ∈ ce1.2) (hk2 : k ∈ ce2.2) :
    ce1.1 = ce2.1 := by
  by_contra hne
  exact listed_disjoint ce1 h1 ce2 h2 hne k hk1 hk2

/-- What the map built by `NewClassifier` holds, for every iteration order. -/
theorem extMap_listed (tbl : Char → Char) (order : List (String × List String))
    (h : order.Perm DefaultMappings) (k : String) :
    (∀ ce ∈ DefaultMappings, k ∈ ce.2 → (NewClassifier tbl order).extMap k = some ce.1) ∧
    ((∀ ce ∈ DefaultMappings, k ∉ ce.2) → (NewClassifier tbl order).extMap k = none) := by
  rw [NewClassifier_eq]
  constructor
  · intro ce hce hk
    have hex : ∃ c ∈ order, k ∈ c.2.map (ToLower tbl) :=
      ⟨ce, h.mem_iff.2 hce, by rw [listed_lower tbl ce hce]; exact hk⟩
    obtain ⟨c, hc, hkc, hv⟩ := outer_lookup_present tbl order (fun _ => none) k hex
    have hcD := h.mem_iff.1 hc
    rw [listed_lower tbl c hcD] at hkc
    rw [hv, listed_unique c ce hcD hce k hkc hk]
  · intro hno
    rw [outer_lookup_absent tbl order _ k]
    intro ce hce
    have hcD := h.mem_iff.1 hce
    rw [listed_lower tbl ce hcD]
    exact hno ce hcD

theorem extMap_order (tbl : Char → Char) (order : List (String × List String))
    (h : order.Perm DefaultMappings) :
    NewClassifier tbl order = NewClassifier tbl DefaultMappings := by
  have key : (NewClassifier tbl order).extMap = (NewClassifier tbl DefaultMappings).extMap := by
    funext k
    by_cases hk : ∃ ce ∈ DefaultMappings, k ∈ ce.2
    · obtain ⟨ce, hce, hkc⟩ := hk
      rw [(extMap_listed tbl order h k).1 ce hce hkc,
        (extMap_listed tbl DefaultMappings (List.Perm.refl _) k).1 ce hce hkc]
    · have hno : ∀ ce ∈ DefaultMappings, k ∉ ce.2 := fun ce hce hkc => hk ⟨ce, hce, hkc⟩
      rw [(extMap_listed tbl order h k).2 hno,
        (extMap_listed tbl DefaultMappings (List.Perm.refl _) k).2 hno]
  cases hA : NewClassifier tbl order
  cases hB : NewClassifier tbl DefaultMappings
  rw [hA, hB] at key
  simp only at key
  rw [key]

theorem Classify_listed (tbl : Char → Char) (order : List (String × List String))
    (h : order.Perm DefaultMappings) (filename : String) (ce : String × List String)
    (hce : ce ∈ DefaultMappings) (hk : ToLower tbl (Ext filename) ∈ ce.2) :
    Classify tbl (NewClassifier tbl order) filename = ce.1 := by
  simp only [Classify, (extMap_listed tbl order h _).1 ce hce hk]

theorem Classify_unlisted (tbl : Char → Char) (order : List (String × List String))
    (h : order.Perm DefaultMappings) (filename : String)
    (hk : ∀ ce ∈ DefaultMappings, ToLower tbl (Ext filename) ∉ ce.2) :
    Classify tbl (NewClassifier tbl order) filename = Others := by
  simp only [Classify, (extMap_listed tbl order h _).2 hk]

end classifier

/-! ## Facts about `filepath.Ext` -/

namespace filepath

theorem extScan_noDot (l acc : List Char) (h : '.' ∉ l) : extScan l acc = [] := by
  induction l generalizing acc with
  | nil => rfl
  | cons c rest ih =>
    have hc : c ≠ '.' := fun e => h (e ▸ List.mem_cons_self _ _)
    have hr : '.' ∉ rest := fun hm => h (List.mem_cons_of_mem _ hm)
    unfold extScan
    by_cases hs : c = '/'
    · rw [if_pos hs]
    · rw [if_neg hs, if_neg hc, ih _ hr]

/-- The scan walks over a stretch without dot or separator, collecting it. -/
theorem extScan_skip (l rest acc : List Char) (hdot : '.' ∉ l) (hsep : '/' ∉ l) :
    extScan (l.reverse ++ rest) acc = extScan rest (l ++ acc) := by
  induction l generalizing rest with
  | nil => rfl
  | cons c tl ih =>
    have hc : c ≠ '.' := fun e => hdot (e ▸ List.mem_cons_self _ _)
    have hs : c ≠ '/' := fun e => hsep (e ▸ List.mem_cons_self _ _)
    have h1 : '.' ∉ tl := fun hm => hdot (List.mem_cons_of_mem _ hm)
    have h2 : '/' ∉ tl := fun hm => hsep (List.mem_cons_of_mem _ hm)
    rw [List.reverse_cons, List.append_assoc, ih _ h1 h2, List.singleton_append]
    conv => lhs; unfold extScan
    rw [if_neg hs, if_neg hc]
    rfl

theorem Ext_noDot (path : String) (h : '.' ∉ path.data) : Ext path = "" := by
  unfold Ext
  rw [extScan_noDot _ _ (fun hm => h (List.mem_reverse.1 hm))]

/-- A leading dot followed by a name without dot or separator: the whole is the extension. -/
theorem Ext_dotfile (name : String) (hdot : '.' ∉ name.data) (hsep : '/' ∉ name.data) :
    Ext ("." ++ name) = "." ++ name := by
  unfold Ext
  have hd : ("." ++ name).data = '.' :: name.data := by
    rw [String.data_append]; rfl
  rw [hd, List.reverse_cons, extScan_skip _ _ _ hdot hsep, List.append_nil]
  have hscan : extScan ['.'] name.data = '.' :: name.data := rfl
  rw [hscan, ← hd]

end filepath

namespace classifier

open strings filepath

/-- The table of `TestClassifier_Classify`, for every iteration order and every case
table. -/
theorem TestClassifier_Classify (tbl : Char → Char) (order : List (String × List String))
    (h : order.Perm DefaultMappings) :
    Classify tbl (NewClassifier tbl order) "image.jpg" = Images ∧
    Classify tbl (NewClassifier tbl order) "photo.PNG" = Images ∧
    Classify tbl (NewClassifier tbl order) "document.pdf" = Documents ∧
    Classify tbl (NewClassifier tbl order) "music.mp3" = Audio ∧
    Classify tbl (NewClassifier tbl order) "movie.mp4" = Video ∧
    Classify tbl (NewClassifier tbl order) "archive.zip" = Archives ∧
    Classify tbl (NewClassifier tbl order) "script.py" = Code ∧
    Classify tbl (NewClassifier tbl order) "program.exe" = Executables ∧
    Classify tbl (NewClassifier tbl order) "font.ttf" = Fonts ∧
    Classify tbl (NewClassifier tbl order) "unknown.xyz" = Others ∧
    Classify tbl (NewClassifier tbl order) "no_extension" = Others ∧
    Classify tbl (NewClassifier tbl order) ".gitignore" = Others := by
  rw [extMap_order tbl order h]
  exact ⟨rfl, rfl, rfl, rfl, rfl, rfl, rfl, rfl, rfl, rfl, rfl, rfl⟩

end classifier

/-! ## The classifier's contract -/

namespace classifier

open strings filepath

/-- C1. For the classifier built by `NewClassifier` (whatever order the map
`DefaultMappings` is ranged over) and every filename: when the lowercased
`filepath.Ext` of the filename is listed in `DefaultMappings`, `Classify` returns the
category it is listed under; when it is listed nowhere, and in particular when the
filename holds no dot, `Classify` returns `Others`. So `photo.PNG` is in `Images`,
`archive.tar.gz` in `Archives` and `README` in `Others`. -/
theorem Classify_contract (tbl : Char → Char) (order : List (String × List String))
    (h : order.Perm DefaultMappings) (filename : String) :
    (∀ cat exts, (cat, exts) ∈ DefaultMappings → ToLower tbl (Ext filename) ∈ exts →
        Classify tbl (NewClassifier tbl order) filename = cat) ∧
    ((∀ cat exts, (cat, exts) ∈ DefaultMappings → ToLower tbl (Ext filename) ∉ exts) →
        Classify tbl (NewClassifier tbl order) filename = Others) ∧
    ('.' ∉ filename.data → Classify tbl (NewClassifier tbl order) filename = Others) ∧
    Classify tbl (NewClassifier tbl order) "photo.PNG" = Images ∧
    Classify tbl (NewClassifier tbl order) "archive.tar.gz" = Archives ∧
    Classify tbl (NewClassifier tbl order) "README" = Others := by
  refine ⟨?_, ?_, ?_, ?_, ?_, ?_⟩
  · intro cat exts hce hk
    exact Classify_listed tbl order h filename (cat, exts) hce hk
  · intro hno
    exact Classify_unlisted tbl order h filename (fun ce hce => hno ce.1 ce.2 hce)
  · intro hdot
    apply Classify_unlisted tbl order h filename
    rw [Ext_noDot filename hdot]
    have hnone : ∀ ce ∈ DefaultMappings, ("" : String) ∉ ce.2 := by decide
    exact hnone
  · exact Classify_listed tbl order h "photo.PNG" (Images, _) (List.mem_cons_self _ _)
      (by
        have e : ToLower tbl (Ext "photo.PNG") = ".png" := rfl
        rw [e]; decide)
  · have hA : (Archives, [".zip", ".rar", ".7z", ".tar", ".gz", ".bz2", ".xz", ".iso", ".tgz"])
        ∈ DefaultMappings := by decide
    exact Classify_listed tbl order h "archive.tar.gz" _ hA
      (by
        have e : ToLower tbl (Ext "archive.tar.gz") = ".gz" := rfl
        rw [e]; decide)
  · apply Classify_unlisted tbl order h "README"
    have e : ToLower tbl (Ext "README") = "" := rfl
    rw [e]
    decide

/-- C1 at a concrete input: the table ranged over back to front, no non-ASCII case
mapping, the file `movie.MKV`. -/
theorem Classify_contract_witness :
    DefaultMappings.reverse.Perm DefaultMappings ∧
    Classify id (NewClassifier id DefaultMappings.reverse) "movie.MKV" = Video :=
  ⟨List.reverse_perm _,
   (Classify_contract id DefaultMappings.reverse (List.reverse_perm _) "movie.MKV").1
     Video [".mp4", ".avi", ".mkv", ".mov", ".wmv", ".flv", ".webm", ".m4v", ".mpeg", ".mpg"]
     (by decide) (by decide)⟩

/-- C2 as stated fails: `.png` is a leading dot followed by the non-empty, dot-free
name `png`, and it is classified as `Images`, not `Others`, whatever the Unicode case
tables hold. -/
theorem dotfile_png_counterexample :
    (".png" = "." ++ "png" ∧ "png" ≠ "" ∧ '.' ∉ "png".data) ∧
    (∀ tbl : Char → Char, Classify tbl (NewClassifier tbl DefaultMappings) ".png" = Images) ∧
    Images ≠ Others :=
  ⟨by decide, fun _ => rfl, by decide⟩

/-- C2, amended. For a filename made of a leading dot and a name without a further
dot (and without a separator), `filepath.Ext` returns the whole filename, so the whole
filename is looked up as an extension: `Classify` returns `Others` exactly when its
lowercase form is not listed in `DefaultMappings`, and the listing category when it
is. -/
theorem Classify_dotfile (tbl : Char → Char) (order : List (String × List String))
    (h : order.Perm DefaultMappings) (name : String)
    (hdot : '.' ∉ name.data) (hsep : '/' ∉ name.data) :
    Ext ("." ++ name) = "." ++ name ∧
    (Classify tbl (NewClassifier tbl order) ("." ++ name) = Others ↔
        ∀ cat exts, (cat, exts) ∈ DefaultMappings → ToLower tbl ("." ++ name) ∉ exts) ∧
    (∀ cat exts, (cat, exts) ∈ DefaultMappings → ToLower tbl ("." ++ name) ∈ exts →
        Classify tbl (NewClassifier tbl order) ("." ++ name) = cat) := by
  have hext := Ext_dotfile name hdot hsep
  refine ⟨hext, ⟨?_, ?_⟩, ?_⟩
  · intro hO cat exts hce hk
    rw [← hext] at hk
    have := Classify_listed tbl order h ("." ++ name) (cat, exts) hce hk
    rw [hO] at this
    exact listed_notOthers (cat, exts) hce this.symm
  · intro hno
    apply Classify_unlisted tbl order h
    rw [hext]
    exact fun ce hce => hno ce.1 ce.2 hce
  · intro cat exts hce hk
    rw [← hext] at hk
    exact Classify_listed tbl order h ("." ++ name) (cat, exts) hce hk

/-- C2 (amended) at `.gitignore`. -/
theorem Classify_dotfile_witness :
    ('.' ∉ "gitignore".data ∧ '/' ∉ "gitignore".data) ∧
    Classify id (NewClassifier id DefaultMappings) ("." ++ "gitignore") = Others :=
  ⟨by decide,
   (Classify_dotfile id DefaultMappings (List.Perm.refl _) "gitignore"
      (by decide) (by decide)).2.1.2
     (fun cat exts hce =>
       (by decide : ∀ ce ∈ DefaultMappings, ToLower id ("." ++ "gitignore") ∉ ce.2) (cat, exts) hce)⟩

/-- C10. The extension table is well defined: two listed extensions that agree
after lowercasing (in particular two equal ones) are listed under the same category,
every listed extension is its own lowercase form and starts with a dot, nothing is
listed under `Others`; hence `NewClassifier` builds the same map for every iteration
order, `Classify` does not depend on the order, and it returns `Others` if and only
if the lowercased extension is not listed. -/
theorem DefaultMappings_wellDefined (tbl : Char → Char) :
    (∀ ce1 ∈ DefaultMappings, ∀ ce2 ∈ DefaultMappings, ∀ x ∈ ce1.2, ∀ y ∈ ce2.2,
        ToLower tbl x = ToLower tbl y → ce1.1 = ce2.1) ∧
    (∀ ce ∈ DefaultMappings, ∀ x ∈ ce.2, ToLower tbl x = x ∧ HasPrefix x "." = true) ∧
    (∀ ce ∈ DefaultMappings, ce.1 ≠ Others) ∧
    (∀ order : List (String × List String), order.Perm DefaultMappings →
        NewClassifier tbl order = NewClassifier tbl DefaultMappings) ∧
    (∀ order1 order2 : List (String × List String), order1.Perm DefaultMappings →
        order2.Perm DefaultMappings → ∀ filename,
        Classify tbl (NewClassifier tbl order1) filename
          = Classify tbl (NewClassifier tbl order2) filename) ∧
    (∀ order : List (String × List String), order.Perm DefaultMappings → ∀ filename,
        (Classify tbl (NewClassifier tbl order) filename = Others ↔
          ∀ ce ∈ DefaultMappings, ToLower tbl (Ext filename) ∉ ce.2)) := by
  refine ⟨?_, ?_, listed_notOthers, extMap_order tbl, ?_, ?_⟩
  · intro ce1 h1 ce2 h2 x hx y hy hxy
    rw [ToLower_fixed tbl x (listed_isLowerASCII ce1 h1 x hx),
      ToLower_fixed tbl y (listed_isLowerASCII ce2 h2 y hy)] at hxy
    exact listed_unique ce1 ce2 h1 h2 x hx (hxy ▸ hy)
  · intro ce hce x hx
    exact ⟨ToLower_fixed tbl x (listed_isLowerASCII ce hce x hx), listed_startsWithDot ce hce x hx⟩
  · intro o1 o2 h1 h2 filename
    rw [extMap_order tbl o1 h1, extMap_order tbl o2 h2]
  · intro order h filename
    constructor
    · intro hO ce hce hk
      have := Classify_listed tbl order h filename ce hce hk
      rw [hO] at this
      exact listed_notOthers ce hce this.symm
    · exact Classify_unlisted tbl order h filename

/-- C10 at a concrete input: ranging over the table back to front builds the same
classifier, and `notes.TXT` is classified alike by both. -/
theorem DefaultMappings_wellDefined_witness :
    NewClassifier id DefaultMappings.reverse = NewClassifier id DefaultMappings ∧
    Classify id (NewClassifier id DefaultMappings.reverse) "notes.TXT"
      = Classify id (NewClassifier id DefaultMappings) "notes.TXT" :=
  ⟨(DefaultMappings_wellDefined id).2.2.2.1 _ (List.reverse_perm _),
   (DefaultMappings_wellDefined id).2.2.2.2.1 _ _ (List.reverse_perm _) (List.Perm.refl _) _⟩

end classifier

/-! ## The two Fibonacci functions -/

namespace benchmark

theorem wrap_le_maxInt (x : Int) : wrap x ≤ maxInt := by
  unfold wrap maxInt
  omega

theorem wrap_of_inRange (x : Int) (h1 : -9223372036854775808 ≤ x) (h2 : x ≤ maxInt) :
    wrap x = x := by
  unfold wrap
  unfold maxInt at h2
  omega

/-- With `n = math.MaxInt64` the loop condition `i <= n` holds for every value the
counter can take, so the loop is never left. -/
theorem fibLoop_maxInt (fuel : Nat) (i prev curr : Int) (hi : i ≤ maxInt) :
    fibLoop maxInt fuel i prev curr = none := by
  induction fuel generalizing i prev curr with
  | zero => rfl
  | succ k ih =>
    unfold fibLoop
    rw [if_pos hi]
    exact ih _ _ _ (wrap_le_maxInt _)

/-- The recursive function computes `F`. -/
theorem Fibonacci_eq_F (k : Nat) : Fibonacci (k : Int) = F k := by
  induction k using Nat.strong_induction_on with
  | _ k ih =>
    match k with
    | 0 => rw [Fibonacci]; rfl
    | 1 => rw [Fibonacci]; rfl
    | m + 2 =>
      rw [Fibonacci, if_neg (by omega)]
      have e1 : ((m + 2 : Nat) : Int) - 1 = ((m + 1 : Nat) : Int) := by omega
      have e2 : ((m + 2 : Nat) : Int) - 2 = ((m : Nat) : Int) := by omega
      rw [e1, e2, ih (m + 1) (by omega), ih m (by omega)]
      rfl

/-- Loop invariant: entering the test with `i = j + 2`, `prev = F j`, `curr = F (j+1)`
and `d` iterations to go, the loop returns `F n`. -/
theorem fibLoop_spec (n : Nat) (hn : (n : Int) < maxInt) (d j : Nat) (hj : j + 1 + d = n) :
    fibLoop n (d + 1) ((j : Int) + 2) (F j) (F (j + 1)) = some (F n) := by
  induction d generalizing j with
  | zero =>
    unfold fibLoop
    rw [if_neg (by omega)]
    have : j + 1 = n := by omega
    rw [this]
  | succ d ih =>
    unfold fibLoop
    rw [if_pos (by omega)]
    have hi : addInt ((j : Int) + 2) 1 = ((j + 1 : Nat) : Int) + 2 := by
      unfold addInt
      rw [wrap_of_inRange _ (by omega) (by unfold maxInt at hn ⊢; omega)]
      omega
    have hF : addInt (F j) (F (j + 1)) = F (j + 1 + 1) := by
      show _ = addInt (F (j + 1)) (F j)
      unfold addInt
      rw [Int.add_comm]
    rw [hi, hF]
    exact ih (j + 1) (by omega)

theorem FibonacciIterative_eq_F (n : Nat) (hn : (n : Int) < maxInt) :
    FibonacciIterative n (n : Int) = some (F n) := by
  unfold FibonacciIterative
  match n, hn with
  | 0, _ => rfl
  | 1, _ => rfl
  | m + 2, hn =>
    rw [if_neg (by omega)]
    have := fibLoop_spec (m + 2) hn (m + 1) 0 (by omega)
    simpa using this

/-- The benchmarked input `N=10`: both functions return `55`. -/
theorem Fibonacci_ten : Fibonacci 10 = 55 ∧ FibonacciIterative 10 10 = some 55 :=
  ⟨(Fibonacci_eq_F 10).trans (by decide), by decide⟩

/-- Away from `math.MaxInt64` the two functions agree and compute `F`: for every
`0 ≤ n < MaxInt64` the recursion returns `F n` and the loop, given `n` tests of its
condition, returns `F n` too; for `n ≤ 1`, negative `n` included, both return `n`. -/
theorem Fibonacci_agree_below_maxInt :
    (∀ n : Int, 0 ≤ n → n < maxInt →
        Fibonacci n = F n.toNat ∧ FibonacciIterative n.toNat n = some (F n.toNat)) ∧
    (∀ n : Int, n ≤ 1 → Fibonacci n = n ∧ ∀ fuel, FibonacciIterative fuel n = some n) := by
  constructor
  · intro n h0 h1
    obtain ⟨k, rfl⟩ := Int.eq_ofNat_of_zero_le h0
    rw [Int.toNat_natCast]
    exact ⟨Fibonacci_eq_F k, FibonacciIterative_eq_F k h1⟩
  · intro n hn
    constructor
    · rw [Fibonacci, if_pos hn]
    · intro fuel
      unfold FibonacciIterative
      rw [if_pos hn]

/-- C9, the input on which the code fails: `FibonacciIterative(math.MaxInt64)` never
returns, whatever number of loop tests it is allowed, while `Fibonacci` is a total
function; so `Fibonacci(n) = FibonacciIterative(n)` does not hold at
`n = 9223372036854775807`. -/
theorem FibonacciIterative_maxInt_diverges :
    (0 : Int) ≤ maxInt ∧ ∀ fuel : Nat, FibonacciIterative fuel maxInt = none := by
  refine ⟨by decide, fun fuel => ?_⟩
  unfold FibonacciIterative
  rw [if_neg (by decide)]
  exact fibLoop_maxInt fuel 2 0 1 (by decide)

end benchmark

/-! ## Facts about the file-system model -/

namespace os

theorem find_filter_ne (l : List (Path × Node)) (p q : Path) (h : q ≠ p) :
    find (l.filter (fun e => decide (e.1 ≠ p))) q = find l q := by
  induction l with
  | nil => rfl
  | cons e rest ih =>
    obtain ⟨r, n⟩ := e
    by_cases hr : r = p
    · subst hr
      have hq : ¬ r = q := fun e => h e.symm
      simp only [List.filter_cons, ne_eq, not_true_eq_false, decide_False, Bool.false_eq_true,
        if_false, find, if_neg hq]
      exact ih
    · simp only [List.filter_cons, ne_eq, hr, not_false_eq_true, decide_True, if_true, find]
      rw [ih]

theorem find_filter_self (l : List (Path × Node)) (p : Path) :
    find (l.filter (fun e => decide (e.1 ≠ p))) p = none := by
  induction l with
  | nil => rfl
  | cons e rest ih =>
    obtain ⟨r, n⟩ := e
    by_cases hr : r = p
    · simp only [List.filter_cons, ne_eq, hr, not_true_eq_false, decide_False,
        Bool.false_eq_true, if_false]
      exact ih
    · simp only [List.filter_cons, ne_eq, hr, not_false_eq_true, decide_True, if_true, find,
        if_false]
      exact ih

theorem find_remove_ne (fs : FS) (p q : Path) (h : q ≠ p) :
    find (remove fs p).objects q = find fs.objects q :=
  find_filter_ne fs.objects p q h

theorem find_remove_self (fs : FS) (p : Path) : find (remove fs p).objects p = none :=
  find_filter_self fs.objects p

theorem remove_env (fs : FS) (p : Path) : (remove fs p).env = fs.env := rfl

theorem write_env (fs : FS) (p : Path) (n : Node) : (write fs p n).env = fs.env := rfl

theorem Stat_root (fs : FS) : Stat fs [] = some Node.dir := by
  unfold Stat; rw [if_pos rfl]

theorem Stat_remove_ne (fs : FS) (p q : Path) (h : q ≠ p) :
    Stat (remove fs p) q = Stat fs q := by
  unfold Stat
  rw [find_remove_ne fs p q h]

theorem Stat_remove_self (fs : FS) (p : Path) (h : p ≠ []) : Stat (remove fs p) p = none := by
  unfold Stat
  rw [if_neg h, find_remove_self]

theorem Stat_write_ne (fs : FS) (p q : Path) (n : Node) (h : q ≠ p) :
    Stat (write fs p n) q = Stat fs q := by
  have hpq : ¬ p = q := fun e => h e.symm
  unfold Stat write
  simp only [find, if_neg hpq]
  rw [find_remove_ne fs p q h]

theorem Stat_write_self (fs : FS) (p : Path) (n : Node) (h : p ≠ []) :
    Stat (write fs p n) p = some n := by
  unfold Stat write
  simp only [find, if_neg h, if_true]

/-- A successful `Mkdir` has written a directory where nothing was. -/
theorem Mkdir_ok (fs fs2 : FS) (p : Path) (h : Mkdir fs p = .ok fs2) :
    Stat fs p = none ∧ fs2 = write fs p Node.dir := by
  unfold Mkdir at h
  split at h
  · cases h
  · rename_i hnone
    split at h
    · cases h
    · cases h
    · split at h
      · cases h
      · exact ⟨hnone, by injection h with h; exact h.symm⟩

theorem Mkdir_of_parent (fs : FS) (p : Path) (h1 : Stat fs p = none)
    (h2 : Stat fs p.dropLast = some Node.dir) (h3 : refused fs.env p.dropLast = none) :
    Mkdir fs p = .ok (write fs p Node.dir) := by
  unfold Mkdir
  rw [h1]
  simp only [h2, h3]

/-- The mounts and permissions are not touched by `MkdirAll`. -/
theorem MkdirAllAux_env (k : Nat) (fs : FS) (path : Path) :
    (MkdirAllAux k fs path).2.env = fs.env := by
  induction k generalizing path with
  | zero =>
    unfold MkdirAllAux
    split
    · rfl
    · rfl
    · split
      · rename_i fs2 hmk
        obtain ⟨_, rfl⟩ := Mkdir_ok _ _ _ hmk
        rfl
      · split <;> rfl
  | succ k ih =>
    unfold MkdirAllAux
    split
    · rfl
    · rfl
    · have hrec := ih path.dropLast
      split
      · rename_i e fs1 hres
        rw [hres] at hrec
        exact hrec
      · rename_i fs1 hres
        rw [hres] at hrec
        split
        · rename_i fs2 hmk
          obtain ⟨_, rfl⟩ := Mkdir_ok _ _ _ hmk
          exact hrec
        · split
          · exact hrec
          · exact hrec

/-- Whatever exists is left alone by `MkdirAll`. -/
theorem MkdirAllAux_frame (k : Nat) (fs : FS) (path q : Path) (hq : Stat fs q ≠ none) :
    Stat (MkdirAllAux k fs path).2 q = Stat fs q := by
  induction k generalizing path with
  | zero =>
    unfold MkdirAllAux
    split
    · rfl
    · rfl
    · split
      · rename_i fs2 hmk
        obtain ⟨hnone, rfl⟩ := Mkdir_ok _ _ _ hmk
        exact Stat_write_ne _ _ _ _ (fun e => hq (e ▸ hnone))
      · split <;> rfl
  | succ k ih =>
    unfold MkdirAllAux
    split
    · rfl
    · rfl
    · have hrec := ih path.dropLast
      split
      · rename_i e fs1 hres
        rw [hres] at hrec
        exact hrec
      · rename_i fs1 hres
        rw [hres] at hrec
        split
        · rename_i fs2 hmk
          obtain ⟨hnone, rfl⟩ := Mkdir_ok _ _ _ hmk
          rw [Stat_write_ne _ _ _ _ (fun e => hq (by rw [← hrec, e]; exact hnone))]
          exact hrec
        · split
          · exact hrec
          · exact hrec

theorem MkdirAll_frame (fs : FS) (path q : Path) (hq : Stat fs q ≠ none) :
    Stat (MkdirAll fs path).2 q = Stat fs q :=
  MkdirAllAux_frame _ fs path q hq

/-- An existing directory: nothing to do. -/
theorem MkdirAll_of_dir (fs : FS) (path : Path) (h : Stat fs path = some Node.dir) :
    MkdirAll fs path = (none, fs) := by
  unfold MkdirAll
  cases hk : path.length - 1 with
  | zero => unfold MkdirAllAux; simp only [h]
  | succ k => unfold MkdirAllAux; simp only [h]

/-- A regular file in the way: `ENOTDIR`, nothing changed. -/
theorem MkdirAll_of_file (fs : FS) (path : Path) (data : List Nat)
    (h : Stat fs path = some (Node.file data)) :
    MkdirAll fs path = (some Errno.ENOTDIR, fs) := by
  unfold MkdirAll
  cases hk : path.length - 1 with
  | zero => unfold MkdirAllAux; simp only [h]
  | succ k => unfold MkdirAllAux; simp only [h]

/-- Nothing at `path`, the parent is a directory, and a new entry is allowed there:
the directory is made. -/
theorem MkdirAll_of_parent (fs : FS) (path : Path) (h1 : Stat fs path = none)
    (h2 : Stat fs path.dropLast = some Node.dir) (h3 : refused fs.env path.dropLast = none) :
    MkdirAll fs path = (none, write fs path Node.dir) := by
  unfold MkdirAll
  cases hk : path.length - 1 with
  | zero =>
    unfold MkdirAllAux
    simp only [h1, Mkdir_of_parent fs path h1 h2 h3]
  | succ k =>
    unfold MkdirAllAux
    have hp : MkdirAllAux k fs path.dropLast = (none, fs) := by
      cases k with
      | zero => unfold MkdirAllAux; simp only [h2]
      | succ j => unfold MkdirAllAux; simp only [h2]
    simp only [h1, hp, Mkdir_of_parent fs path h1 h2 h3]

/-- A successful rename of a regular file to another path: the file leaves `src` and is
at `dst`; nothing else changes. -/
theorem Rename_file_ok (fs fs2 : FS) (src dst : Path) (data : List Nat)
    (hsrc : Stat fs src = some (Node.file data)) (hne : src ≠ dst)
    (h : Rename fs src dst = .ok fs2) :
    fs2 = write (remove fs src) dst (Node.file data) ∧ src ≠ [] ∧ dst ≠ [] := by
  have hs0 : src ≠ [] := by
    intro e
    rw [e, Stat_root] at hsrc
    cases hsrc
  unfold Rename at h
  rw [hsrc] at h
  simp only at h
  split at h
  · cases h
  · rename_i hnd
    have hd0 : dst ≠ [] := by
      intro e
      rw [e, Stat_root] at hnd
      exact hnd rfl
    split at h
    · cases h
    · cases h
    · split at h
      · cases h
      · injection h with h
        exact ⟨h.symm, hs0, hd0⟩

/-- When a rename of a regular file goes through: the new name is not a directory,
its parent is one, and the kernel does not refuse the change. -/
theorem Rename_file_of (fs : FS) (src dst : Path) (data : List Nat)
    (hsrc : Stat fs src = some (Node.file data)) (hne : src ≠ dst)
    (hparent : Stat fs dst.dropLast = some Node.dir) (hdst : Stat fs dst ≠ some Node.dir)
    (hallowed : renameRefused fs.env src dst = none) :
    Rename fs src dst = .ok (write (remove fs src) dst (Node.file data)) := by
  have hs0 : src ≠ [] := by
    intro e
    rw [e, Stat_root] at hsrc
    cases hsrc
  unfold Rename
  rw [hsrc]
  simp only [if_neg hdst, if_neg hs0, hparent, hallowed, if_neg hne]

/-- A `Rename` onto itself that succeeds changes nothing. -/
theorem Rename_self (fs fs2 : FS) (p : Path) (h : Rename fs p p = .ok fs2) : fs2 = fs := by
  unfold Rename at h
  split at h
  · cases h
  · split at h
    · cases h
    · split at h
      · cases h
      · split at h
        · cases h
        · cases h
        · split at h
          · cases h
          · rw [if_pos rfl] at h
            injection h with h
            exact h.symm

/-- A rename the kernel does not refuse is one out of a directory where entries may be
removed. -/
theorem renameRefused_none (env : Env) (src dst : Path) (h : renameRefused env src dst = none) :
    refused env src.dropLast = none := by
  unfold renameRefused at h
  split at h
  · cases h
  · split at h
    · cases h
    · assumption

theorem MkdirAll_env (fs : FS) (path : Path) : (MkdirAll fs path).2.env = fs.env :=
  MkdirAllAux_env _ fs path

end os

/-! ## Facts about names and joined paths -/

namespace filepath

open os

theorem splitSep_noSep (l : List Char) (h : '/' ∉ l) : splitSep l = [l] := by
  induction l with
  | nil => rfl
  | cons c rest ih =>
    have hc : c ≠ '/' := fun e => h (e ▸ List.mem_cons_self _ _)
    have hr : '/' ∉ rest := fun hm => h (List.mem_cons_of_mem _ hm)
    unfold splitSep
    rw [if_neg hc, ih hr]

/-- Joining a directory with a plain name appends the name. -/
theorem Join_valid (dir : Path) (name : String) (h : ValidName name) :
    Join dir name = dir ++ [name] := by
  obtain ⟨h1, h2, h3, h4⟩ := h
  unfold Join
  rw [splitSep_noSep _ h4]
  simp only [List.map_cons, List.map_nil, List.foldl_cons, List.foldl_nil]
  unfold cleanStep
  rw [if_neg (by simp [h1, h2]), if_neg h3]

theorem extScan_mem (l acc : List Char) (c : Char) (h : c ∈ extScan l acc) :
    c ∈ l ∨ c ∈ acc := by
  induction l generalizing acc with
  | nil => cases h
  | cons x rest ih =>
    unfold extScan at h
    split at h
    · cases h
    · split at h
      · rename_i hx
        rcases List.mem_cons.1 h with e | hm
        · left; rw [e, ← hx]; exact List.mem_cons_self _ _
        · right; exact hm
      · rcases ih _ h with hm | hm
        · left; exact List.mem_cons_of_mem _ hm
        · rcases List.mem_cons.1 hm with e | hm
          · left; rw [e]; exact List.mem_cons_self _ _
          · right; exact hm

/-- The extension is made of characters of the path. -/
theorem Ext_mem (path : String) (c : Char) (h : c ∈ (Ext path).data) : c ∈ path.data := by
  unfold Ext at h
  rcases extScan_mem _ _ c h with hm | hm
  · exact List.mem_reverse.1 hm
  · cases hm

/-- The scan returns a suffix of what it was given. -/
theorem extScan_suffix (l acc : List Char) : extScan l acc <:+ l.reverse ++ acc := by
  induction l generalizing acc with
  | nil => exact List.nil_suffix
  | cons x rest ih =>
    unfold extScan
    split
    · exact List.nil_suffix
    · split
      · rename_i hx
        rw [List.reverse_cons, List.append_assoc, List.singleton_append, hx]
        exact List.suffix_append _ _
      · have := ih (x :: acc)
        rw [List.reverse_cons, List.append_assoc, List.singleton_append]
        exact this

theorem Ext_suffix (path : String) : (Ext path).data <:+ path.data := by
  have := extScan_suffix path.data.reverse []
  rw [List.reverse_reverse, List.append_nil] at this
  exact this

end filepath

namespace strings

theorem TrimSuffix_mem (s suffix : String) (c : Char) (h : c ∈ (TrimSuffix s suffix).data) :
    c ∈ s.data := by
  unfold TrimSuffix at h
  split at h
  · exact List.mem_of_mem_take h
  · exact h

theorem TrimSuffix_length (s suffix : String) :
    s.data.length ≤ (TrimSuffix s suffix).data.length + suffix.data.length := by
  unfold TrimSuffix
  split
  · simp only [List.length_take]
    omega
  · omega

/-- Trimming a suffix and putting it back gives the string. -/
theorem TrimSuffix_append (s suffix : String) (h : suffix.data <:+ s.data) :
    (TrimSuffix s suffix).data ++ suffix.data = s.data := by
  unfold TrimSuffix
  have hb : suffix.data.isSuffixOf s.data = true := List.isSuffixOf_iff_suffix.2 h
  rw [if_pos hb]
  obtain ⟨t, ht⟩ := h
  simp only [← ht, List.length_append, Nat.add_sub_cancel, List.take_left']

end strings

/-! ## `MoveFile` -/

namespace fileops

open os filepath strings

theorem digitChar_ne_sep (d : Nat) (h : d < 10) : Nat.digitChar d ≠ '/' := by
  interval_cases d <;> decide

theorem toDigitsCore_noSep (fuel n : Nat) (acc : List Char) (h : '/' ∉ acc) :
    '/' ∉ Nat.toDigitsCore 10 fuel n acc := by
  induction fuel generalizing n acc with
  | zero => simpa [Nat.toDigitsCore] using h
  | succ k ih =>
    have hd : '/' ∉ Nat.digitChar (n % 10) :: acc := by
      intro hm
      rcases List.mem_cons.1 hm with e | hm
      · exact digitChar_ne_sep _ (Nat.mod_lt _ (by decide)) e.symm
      · exact h hm
    simp only [Nat.toDigitsCore]
    split
    · exact hd
    · exact ih _ _ hd

theorem natRepr_noSep (n : Nat) : '/' ∉ (Nat.repr n).data := by
  unfold Nat.repr Nat.toDigits List.asString
  exact toDigitsCore_noSep _ _ _ (by simp)

theorem toString_noSep (n : Int) : '/' ∉ (toString n).data := by
  show '/' ∉ (Int.repr n).data
  unfold Int.repr
  split
  · exact natRepr_noSep _
  · rw [String.data_append]
    intro hm
    rcases List.mem_append.1 hm with hm | hm
    · revert hm; decide
    · exact natRepr_noSep _ hm

theorem duplicateName_data (stem : String) (n : Int) (ext : String) :
    (duplicateName stem n ext).data = stem.data ++ '_' :: ((toString n).data ++ ext.data) := by
  unfold duplicateName
  simp only [String.data_append, List.append_assoc]
  rfl

/-- The name given to a duplicate is a plain name again, and not the old name. -/
theorem duplicateName_valid (fileName : String) (now : Int) (h : ValidName fileName) :
    ValidName (duplicateName (TrimSuffix fileName (Ext fileName)) now (Ext fileName)) ∧
    duplicateName (TrimSuffix fileName (Ext fileName)) now (Ext fileName) ≠ fileName := by
  obtain ⟨_, _, _, hsep⟩ := h
  have hd := duplicateName_data (TrimSuffix fileName (Ext fileName)) now (Ext fileName)
  have hmem : '_' ∈ (duplicateName (TrimSuffix fileName (Ext fileName)) now (Ext fileName)).data := by
    rw [hd]
    exact List.mem_append_right _ (List.mem_cons_self _ _)
  refine ⟨⟨?_, ?_, ?_, ?_⟩, ?_⟩
  · intro e
    rw [e] at hmem
    revert hmem
    decide
  · intro e
    rw [e] at hmem
    revert hmem
    decide
  · intro e
    rw [e] at hmem
    revert hmem
    decide
  · rw [hd]
    intro hm
    rcases List.mem_append.1 hm with hm | hm
    · exact hsep (TrimSuffix_mem _ _ _ hm)
    · rcases List.mem_cons.1 hm with e | hm
      · revert e
        decide
      · rcases List.mem_append.1 hm with hm | hm
        · exact toString_noSep now hm
        · exact hsep (Ext_mem _ _ hm)
  · intro e
    have hlen := congrArg (fun s : String => s.data.length) e
    simp only [hd, List.length_append, List.length_cons] at hlen
    have := TrimSuffix_length fileName (Ext fileName)
    omega

/-- With `DryRun` set, `MoveFile` returns a path and no error, and the state it leaves
is the state it found. -/
theorem MoveFile_dryRun_eq (m : FileMover) (now : Int) (fs : FS) (srcPath destDir : Path)
    (h : m.DryRun = true) :
    ∃ p, MoveFile m now fs srcPath destDir = (.ok p, fs) := by
  unfold MoveFile
  simp only [h, Bool.not_true, Bool.false_eq_true, if_false]
  exact ⟨_, rfl⟩

end fileops

/-! ## The contract of `MoveFile` -/

namespace fileops

open os filepath strings

/-- C3. Dry-run invariant: for every source path, destination directory and
file-system state, `MoveFile` with `DryRun` set returns a path and no error and
leaves the state exactly as it was; in particular the destination directory is not
created and the source file is neither removed nor altered. -/
theorem MoveFile_dryRun (m : FileMover) (now : Int) (fs : FS) (srcPath destDir : Path)
    (h : m.DryRun = true) :
    (∃ p, (MoveFile m now fs srcPath destDir).1 = .ok p) ∧
    (MoveFile m now fs srcPath destDir).2 = fs ∧
    Stat (MoveFile m now fs srcPath destDir).2 destDir = Stat fs destDir ∧
    Stat (MoveFile m now fs srcPath destDir).2 srcPath = Stat fs srcPath := by
  obtain ⟨p, hp⟩ := MoveFile_dryRun_eq m now fs srcPath destDir h
  rw [hp]
  exact ⟨⟨p, rfl⟩, rfl, rfl, rfl⟩

/-- C3 on the state of `TestFileMover_DryRun`: the file stays, the folder is not made. -/
theorem MoveFile_dryRun_witness :
    (NewFileMover true false).DryRun = true ∧
    (MoveFile (NewFileMover true false) 0
        [(["tmp"], Node.dir), (["tmp", "dryrun.txt"], Node.file [99, 111])]
        ["tmp", "dryrun.txt"] ["tmp", "DryRunFolder"]).2
      = [(["tmp"], Node.dir), (["tmp", "dryrun.txt"], Node.file [99, 111])] :=
  ⟨rfl, (MoveFile_dryRun (NewFileMover true false) 0
      [(["tmp"], Node.dir), (["tmp", "dryrun.txt"], Node.file [99, 111])]
      ["tmp", "dryrun.txt"] ["tmp", "DryRunFolder"] rfl).2.1⟩

/-- C4 as stated fails when the file already at `destDir/basename(srcPath)` is the
source file itself: `/d/Documents/a.txt` moved into `/d/Documents` is renamed to
`a_<timestamp>.txt`, the call succeeds, and afterwards nothing exists at
`/d/Documents/a.txt`. -/
theorem MoveFile_collision_counterexample :
    Stat [(["d"], Node.dir), (["d", "Documents"], Node.dir),
          (["d", "Documents", "a.txt"], Node.file [1, 2, 3])]
      (Join ["d", "Documents"] (Base ["d", "Documents", "a.txt"])) = some (Node.file [1, 2, 3]) ∧
    (MoveFile (NewFileMover false false) 1700000000000000000
        [(["d"], Node.dir), (["d", "Documents"], Node.dir),
         (["d", "Documents", "a.txt"], Node.file [1, 2, 3])]
        ["d", "Documents", "a.txt"] ["d", "Documents"]).1
      = .ok ["d", "Documents", "a_1700000000000000000.txt"] ∧
    Stat (MoveFile (NewFileMover false false) 1700000000000000000
        [(["d"], Node.dir), (["d", "Documents"], Node.dir),
         (["d", "Documents", "a.txt"], Node.file [1, 2, 3])]
        ["d", "Documents", "a.txt"] ["d", "Documents"]).2
      (Join ["d", "Documents"] (Base ["d", "Documents", "a.txt"])) = none := by
  decide

/-- C4, amended. `DryRun` false, a source file with a plain name, and at
`destDir/basename(srcPath)` a file that is not the source file itself: a successful
`MoveFile` returns `destDir/<stem>_<timestamp><ext>`, where `ext` is the extension of
the base name and `stem` the base name without it; that path differs from
`destDir/basename(srcPath)`; afterwards the earlier file is still at
`destDir/basename(srcPath)` with its content, and the moved file, with its content,
is at the returned path. -/
theorem MoveFile_collision (m : FileMover) (now : Int) (fs fs2 : FS) (srcPath destDir p : Path)
    (data existing : List Nat)
    (hdry : m.DryRun = false)
    (hname : ValidName (Base srcPath))
    (hsrc : Stat fs srcPath = some (Node.file data))
    (hdst : Stat fs (Join destDir (Base srcPath)) = some (Node.file existing))
    (hne : srcPath ≠ Join destDir (Base srcPath))
    (hok : MoveFile m now fs srcPath destDir = (.ok p, fs2)) :
    p = Join destDir
          (duplicateName (TrimSuffix (Base srcPath) (Ext (Base srcPath))) now (Ext (Base srcPath))) ∧
    (TrimSuffix (Base srcPath) (Ext (Base srcPath))).data ++ (Ext (Base srcPath)).data
      = (Base srcPath).data ∧
    p ≠ Join destDir (Base srcPath) ∧
    Stat fs2 (Join destDir (Base srcPath)) = some (Node.file existing) ∧
    Stat fs2 p = some (Node.file data) := by
  obtain ⟨hval, hnew⟩ := duplicateName_valid (Base srcPath) now hname
  have hJ := Join_valid destDir _ hname
  have hJ2 := Join_valid destDir _ hval
  rw [hJ] at hdst hne ⊢
  rw [hJ2]
  have hfr := MkdirAll_frame fs destDir
  unfold MoveFile at hok
  simp only [hdry, Bool.not_false, if_true] at hok
  rcases hmk : MkdirAll fs destDir with ⟨_ | e, fs1⟩
  · rw [hmk] at hok hfr
    simp only at hok hfr
    have h1 : Stat fs1 (destDir ++ [Base srcPath]) = some (Node.file existing) := by
      rw [hfr _ (by rw [hdst]; simp), hdst]
    have h2 : Stat fs1 srcPath = some (Node.file data) := by
      rw [hfr _ (by rw [hsrc]; simp), hsrc]
    rw [hJ, h1, hJ2] at hok
    simp only at hok
    split at hok
    · cases hok
    · rename_i fs3 hren
      injection hok with hp hfs
      injection hp with hp
      subst hp hfs
      have hpne : destDir ++ [duplicateName (TrimSuffix (Base srcPath) (Ext (Base srcPath))) now
          (Ext (Base srcPath))] ≠ destDir ++ [Base srcPath] := by
        intro e
        exact hnew (List.singleton_inj.1 (List.append_cancel_left e))
      refine ⟨rfl, TrimSuffix_append _ _ (Ext_suffix _), hpne, ?_, ?_⟩
      · by_cases hsame : srcPath = destDir ++ [duplicateName (TrimSuffix (Base srcPath)
            (Ext (Base srcPath))) now (Ext (Base srcPath))]
        · rw [← hsame] at hren
          rw [Rename_self _ _ _ hren]
          exact h1
        · obtain ⟨hfs, _, _⟩ := Rename_file_ok _ _ _ _ _ h2 hsame hren
          rw [hfs, Stat_write_ne _ _ _ _ (fun e => hpne e.symm),
            Stat_remove_ne _ _ _ (fun e => hne e.symm)]
          exact h1
      · by_cases hsame : srcPath = destDir ++ [duplicateName (TrimSuffix (Base srcPath)
            (Ext (Base srcPath))) now (Ext (Base srcPath))]
        · rw [← hsame] at hren ⊢
          rw [Rename_self _ _ _ hren]
          exact h2
        · obtain ⟨hfs, _, h0⟩ := Rename_file_ok _ _ _ _ _ h2 hsame hren
          rw [hfs, Stat_write_self _ _ _ h0]
  · rw [hmk] at hok
    simp only at hok
    cases hok

/-- C4 (amended) on the second move of `TestFileMover_MoveFile`: `test.txt` again,
into `Documents`, where the first `test.txt` already is. -/
theorem MoveFile_collision_witness :
    Stat (MoveFile (NewFileMover false false) 42
        [(["tmp"], Node.dir), (["tmp", "Documents"], Node.dir),
         (["tmp", "Documents", "test.txt"], Node.file [1]), (["tmp", "test.txt"], Node.file [2, 3])]
        ["tmp", "test.txt"] ["tmp", "Documents"]).2
      (Join ["tmp", "Documents"] (Base ["tmp", "test.txt"])) = some (Node.file [1]) ∧
    Stat (MoveFile (NewFileMover false false) 42
        [(["tmp"], Node.dir), (["tmp", "Documents"], Node.dir),
         (["tmp", "Documents", "test.txt"], Node.file [1]), (["tmp", "test.txt"], Node.file [2, 3])]
        ["tmp", "test.txt"] ["tmp", "Documents"]).2
      ["tmp", "Documents", "test_42.txt"] = some (Node.file [2, 3]) :=
  have h := MoveFile_collision (NewFileMover false false) 42
    [(["tmp"], Node.dir), (["tmp", "Documents"], Node.dir),
     (["tmp", "Documents", "test.txt"], Node.file [1]), (["tmp", "test.txt"], Node.file [2, 3])]
    (MoveFile (NewFileMover false false) 42
        [(["tmp"], Node.dir), (["tmp", "Documents"], Node.dir),
         (["tmp", "Documents", "test.txt"], Node.file [1]), (["tmp", "test.txt"], Node.file [2, 3])]
        ["tmp", "test.txt"] ["tmp", "Documents"]).2
    ["tmp", "test.txt"] ["tmp", "Documents"] ["tmp", "Documents", "test_42.txt"] [2, 3] [1]
    rfl (by decide) (by decide) (by decide) (by decide) (by decide)
  ⟨h.2.2.2.1, h.2.2.2.2⟩

end fileops

/-! ## Directory listings -/

namespace os

open filepath

theorem find_of_mem (l : List (Path × Node)) (p : Path) (h : p ∈ l.map Prod.fst) :
    find l p ≠ none := by
  induction l with
  | nil => cases h
  | cons e rest ih =>
    obtain ⟨r, n⟩ := e
    unfold find
    by_cases hr : r = p
    · rw [if_pos hr]; simp
    · rw [if_neg hr]
      rcases List.mem_cons.1 h with e | hm
      · exact absurd e.symm hr
      · exact ih hm

theorem childNames_nodup (fs : FS) (dir : Path) : (childNames fs dir).Nodup :=
  List.nodup_dedup _

/-- A listed name is a plain name of something that exists in the directory. -/
theorem childNames_spec (fs : FS) (dir : Path) (name : String) (h : name ∈ childNames fs dir) :
    ValidName name ∧ Stat fs (dir ++ [name]) ≠ none := by
  unfold childNames at h
  rw [List.mem_dedup, List.mem_filter, List.mem_map] at h
  obtain ⟨⟨p, hp, hname⟩, hval⟩ := h
  rw [List.mem_filter] at hp
  obtain ⟨hmem, hcond⟩ := hp
  have hcond := of_decide_eq_true hcond
  have hval := of_decide_eq_true hval
  refine ⟨hval, ?_⟩
  have hp : p = dir ++ [name] := by
    obtain ⟨hp0, hdrop⟩ := hcond
    rcases List.eq_nil_or_concat p with e | ⟨l, x, e⟩
    · exact absurd e hp0
    · subst e
      simp only [List.concat_eq_append, List.dropLast_concat, List.getLastD_concat] at hdrop hname
      rw [hdrop, hname, List.concat_eq_append]
  unfold Stat
  rw [if_neg (by simp), ← hp]
  exact find_of_mem fs.objects p hmem

/-- What a successful `ReadDir` returns: entries with distinct plain names, one for
each listed name, each describing what is at `dir/name`. -/
theorem ReadDir_spec (w : World) (fs : FS) (dir : Path) (entries : List DirEntry)
    (h : ReadDir w fs dir = .ok entries) :
    (entries.map DirEntry.name).Nodup ∧
    ∀ e ∈ entries, ValidName e.name ∧ Stat fs (dir ++ [e.name]) ≠ none ∧ e.parent = dir ∧
      (e.isDir = true ↔ Stat fs (dir ++ [e.name]) = some Node.dir) := by
  unfold ReadDir at h
  split at h
  · cases h
  · cases h
  · split at h
    · cases h
    · injection h with h
      subst h
      constructor
      · rw [List.map_map]
        have : (DirEntry.name ∘ fun name =>
            ({ name := name
               isDir := decide (Stat fs (dir ++ [name]) = some Node.dir)
               parent := dir
               cached := if w.eagerInfo then (Stat fs (dir ++ [name])).map Node.size else none }
              : DirEntry)) = id := rfl
        rw [this, List.map_id]
        exact childNames_nodup fs dir
      · intro e he
        rw [List.mem_map] at he
        obtain ⟨name, hname, rfl⟩ := he
        obtain ⟨hv, hs⟩ := childNames_spec fs dir name hname
        exact ⟨hv, hs, rfl, by simp⟩

end os

/-! ## The workers -/

namespace app

open os filepath strings classifier fileops

theorem eraseIdx_perm {α : Type} (l : List α) (i : Nat) (a : α) (h : l.get? i = some a) :
    (a :: l.eraseIdx i).Perm l := by
  induction l generalizing i with
  | nil => cases h
  | cons x rest ih =>
    cases i with
    | zero =>
      simp only [List.get?_cons_zero, Option.some.injEq] at h
      subst h
      exact List.Perm.refl _
    | succ j =>
      simp only [List.get?_cons_succ] at h
      simp only [List.eraseIdx_cons_succ]
      exact (List.Perm.swap x a _).trans ((ih j h).cons x)

theorem runOrder_cons (tbl : Char → Char) (a : App) (x : Int × fileTask)
    (order : List (Int × fileTask)) (st : RunState) :
    runOrder tbl a (x :: order) st
      = runOrder tbl a order (processFile tbl a x.1 x.2.path x.2.info st) := rfl

/-- Whatever the workers' order, the run is the `processFile` calls of the waiting
tasks, each made once, one after the other. -/
theorem drain_eq_runOrder (tbl : Char → Char) (a : App) (w : World) (n k : Nat)
    (waiting : List fileTask) (st : RunState) (hn : waiting.length = n) :
    ∃ order : List (Int × fileTask), (order.map Prod.snd).Perm waiting ∧
      drain tbl a w n k waiting st = runOrder tbl a order st := by
  induction n generalizing k waiting st with
  | zero =>
    have : waiting = [] := List.length_eq_zero.1 hn
    subst this
    exact ⟨[], List.Perm.refl _, rfl⟩
  | succ n ih =>
    have hlt : w.pick k % waiting.length < waiting.length := Nat.mod_lt _ (by omega)
    have hget : waiting.get? (w.pick k % waiting.length)
        = some (waiting.get ⟨w.pick k % waiting.length, hlt⟩) := List.get?_eq_get hlt
    unfold drain
    rw [hget]
    simp only
    have hlen : (waiting.eraseIdx (w.pick k % waiting.length)).length = n := by
      rw [List.length_eraseIdx, if_pos hlt]
      omega
    obtain ⟨order, hperm, hrun⟩ := ih (k + 1) (waiting.eraseIdx (w.pick k % waiting.length))
      (processFile tbl a (w.clock k) (waiting.get ⟨w.pick k % waiting.length, hlt⟩).path
        (waiting.get ⟨w.pick k % waiting.length, hlt⟩).info st) hlen
    refine ⟨(w.clock k, waiting.get ⟨w.pick k % waiting.length, hlt⟩) :: order, ?_, ?_⟩
    · rw [List.map_cons]
      exact (hperm.cons _).trans (eraseIdx_perm waiting _ _ hget)
    · rw [runOrder_cons, hrun]

/-- One `processFile`: one more recorded call, one more in exactly one of the two
counters, and the file system as `MoveFile` left it. -/
theorem processFile_step (tbl : Char → Char) (a : App) (now : Int) (path : Path)
    (entry : DirEntry) (st : RunState) :
    ∃ b : Bool,
      (processFile tbl a now path entry st).calls
        = ⟨path, Join a.Config.SourceDir (Classify tbl a.Classifier entry.name), b⟩ :: st.calls ∧
      (processFile tbl a now path entry st).stats.FilesMoved
        = st.stats.FilesMoved + (if b then 1 else 0) ∧
      (processFile tbl a now path entry st).stats.FilesFailed
        = st.stats.FilesFailed + (if b then 0 else 1) ∧
      (processFile tbl a now path entry st).stats.FilesSkipped = st.stats.FilesSkipped ∧
      (b = true ↔ ∃ p, (MoveFile a.Mover now st.fs path
          (Join a.Config.SourceDir (Classify tbl a.Classifier entry.name))).1 = .ok p) ∧
      (processFile tbl a now path entry st).fs
        = (MoveFile a.Mover now st.fs path
            (Join a.Config.SourceDir (Classify tbl a.Classifier entry.name))).2 := by
  unfold processFile
  simp only
  rcases hmv : MoveFile a.Mover now st.fs path
      (Join a.Config.SourceDir (Classify tbl a.Classifier entry.name)) with ⟨r, fs1⟩
  cases r with
  | error e =>
    refine ⟨false, rfl, ?_, rfl, rfl, ?_, rfl⟩
    · simp
    · simp
  | ok p =>
    simp only
    cases entry.Info fs1 with
    | none => exact ⟨true, rfl, rfl, by simp, rfl, by simp, rfl⟩
    | some size => exact ⟨true, rfl, rfl, by simp, rfl, by simp, rfl⟩

theorem processFile_counted (tbl : Char → Char) (a : App) (now : Int) (path : Path)
    (entry : DirEntry) (st : RunState) (h : Counted st) :
    Counted (processFile tbl a now path entry st) := by
  obtain ⟨b, hc, hm, hf, hs, _, _⟩ := processFile_step tbl a now path entry st
  obtain ⟨h1, h2, h3⟩ := h
  unfold Counted
  rw [hc, hm, hf, hs, h1, h2, h3]
  cases b <;> simp [List.countP_cons]

theorem runOrder_counted (tbl : Char → Char) (a : App) (order : List (Int × fileTask))
    (st : RunState) (h : Counted st) :
    Counted (runOrder tbl a order st) ∧
    (runOrder tbl a order st).calls.map MoveCall.srcPath
      = (order.map (fun x => x.2.path)).reverse ++ st.calls.map MoveCall.srcPath := by
  induction order generalizing st with
  | nil => exact ⟨h, by simp [runOrder]⟩
  | cons x rest ih =>
    rw [runOrder_cons]
    obtain ⟨hcnt, hcalls⟩ := ih _ (processFile_counted tbl a x.1 x.2.path x.2.info st h)
    refine ⟨hcnt, ?_⟩
    obtain ⟨b, hc, _⟩ := processFile_step tbl a x.1 x.2.path x.2.info st
    rw [hcalls, hc]
    simp

theorem drain_succ (tbl : Char → Char) (a : App) (w : World) (n k : Nat)
    (waiting : List fileTask) (st : RunState) (task : fileTask)
    (h : waiting.get? (w.pick k % waiting.length) = some task) :
    drain tbl a w (n + 1) k waiting st
      = drain tbl a w n (k + 1) (waiting.eraseIdx (w.pick k % waiting.length))
          (processFile tbl a (w.clock k) task.path task.info st) := by
  rw [drain, h]

/-- The workers consult the environment only for the choices still to come. -/
theorem drain_congr (tbl : Char → Char) (a : App) (w1 w2 : World) (n k : Nat)
    (waiting : List fileTask) (st : RunState)
    (hpick : ∀ j, k ≤ j → w1.pick j = w2.pick j) (hclock : ∀ j, k ≤ j → w1.clock j = w2.clock j) :
    drain tbl a w1 n k waiting st = drain tbl a w2 n k waiting st := by
  induction n generalizing k waiting st with
  | zero => rfl
  | succ n ih =>
    unfold drain
    rw [hpick k (Nat.le_refl k), hclock k (Nat.le_refl k)]
    cases waiting.get? (w2.pick k % waiting.length) with
    | none => rfl
    | some task =>
      exact ih (k + 1) _ _ (fun j hj => hpick j (by omega)) (fun j hj => hclock j (by omega))

/-- Every order of the waiting tasks, with any clock readings, is one the workers can
take: some choice of `pick` and `clock` produces it. -/
theorem drain_any_order (tbl : Char → Char) (a : App) (w : World)
    (order : List (Int × fileTask)) (k : Nat) (waiting : List fileTask) (st : RunState)
    (h : (order.map Prod.snd).Perm waiting) :
    ∃ pick clock, drain tbl a { w with pick := pick, clock := clock } order.length k waiting st
      = runOrder tbl a order st := by
  induction order generalizing k waiting st with
  | nil =>
    exact ⟨w.pick, w.clock, rfl⟩
  | cons x rest ih =>
    have hmem : x.2 ∈ waiting := h.mem_iff.1 (List.mem_cons_self _ _)
    have hlt : waiting.indexOf x.2 < waiting.length := List.indexOf_lt_length.2 hmem
    have hget : waiting.get? (waiting.indexOf x.2) = some x.2 := by
      rw [List.get?_eq_get hlt]
      exact congrArg some (List.indexOf_get hlt)
    have hrest : (rest.map Prod.snd).Perm (waiting.eraseIdx (waiting.indexOf x.2)) := by
      have h1 : (x.2 :: rest.map Prod.snd).Perm waiting := h
      exact (h1.trans (eraseIdx_perm waiting _ _ hget).symm).cons_inv
    obtain ⟨pick, clock, hrun⟩ := ih (k + 1) (waiting.eraseIdx (waiting.indexOf x.2))
      (processFile tbl a x.1 x.2.path x.2.info st) hrest
    refine ⟨fun j => if j = k then waiting.indexOf x.2 else pick j,
      fun j => if j = k then x.1 else clock j, ?_⟩
    rw [List.length_cons, runOrder_cons, ← hrun,
      drain_succ _ _ _ _ _ _ _ x.2 (by simp only [if_true, Nat.mod_eq_of_lt hlt, hget])]
    simp only [if_true, Nat.mod_eq_of_lt hlt]
    apply drain_congr
    · intro j hj
      simp only
      rw [if_neg (by omega)]
    · intro j hj
      simp only
      rw [if_neg (by omega)]

end app

/-! ## What one move changes -/

namespace fileops

open os filepath strings

theorem Base_child (dir : Path) (name : String) : Base (dir ++ [name]) = name := by
  unfold Base
  rw [List.getLastD_concat]

/-- The destination `MoveFile` settles on is a plain name inside `destDir`. -/
theorem destination_child (fs1 : FS) (destDir : Path) (fileName : String) (now : Int)
    (hv : ValidName fileName) :
    ∃ name, ValidName name ∧
      (match Stat fs1 (Join destDir fileName) with
        | some _ =>
          Join destDir (duplicateName (TrimSuffix fileName (Ext fileName)) now (Ext fileName))
        | none => Join destDir fileName) = destDir ++ [name] := by
  split
  · exact ⟨_, (duplicateName_valid fileName now hv).1,
      Join_valid _ _ (duplicateName_valid fileName now hv).1⟩
  · exact ⟨_, hv, Join_valid _ _ hv⟩

/-- Frame of `MoveFile`: moving a regular file leaves alone whatever exists elsewhere than at the
source and directly inside the destination directory. -/
theorem MoveFile_frame (m : FileMover) (now : Int) (fs : FS) (srcPath destDir : Path)
    (data : List Nat) (hv : ValidName (Base srcPath))
    (hfile : Stat fs srcPath = some (Node.file data)) (q : Path)
    (hq : Stat fs q ≠ none) (hq1 : q ≠ srcPath) (hq2 : q.length ≠ destDir.length + 1) :
    Stat (MoveFile m now fs srcPath destDir).2 q = Stat fs q := by
  unfold MoveFile
  cases hdry : m.DryRun with
  | true => simp only [Bool.not_true, Bool.false_eq_true, if_false]
  | false =>
    simp only [Bool.not_false, if_true]
    have hfr := MkdirAll_frame fs destDir
    rcases hmk : MkdirAll fs destDir with ⟨_ | e, fs1⟩
    · rw [hmk] at hfr
      simp only at hfr ⊢
      obtain ⟨name, _, hdest⟩ := destination_child fs1 destDir (Base srcPath) now hv
      rw [hdest]
      have hsrc1 : Stat fs1 srcPath = some (Node.file data) := by
        rw [hfr _ (by rw [hfile]; simp), hfile]
      have hqd : q ≠ destDir ++ [name] := by
        intro e
        rw [e] at hq2
        simp at hq2
      split
      · exact hfr q hq
      · rename_i fs2 hren
        simp only
        by_cases hsame : srcPath = destDir ++ [name]
        · rw [← hsame] at hren
          rw [Rename_self _ _ _ hren]
          exact hfr q hq
        · obtain ⟨hfs, _, _⟩ := Rename_file_ok _ _ _ _ _ hsrc1 hsame hren
          rw [hfs, Stat_write_ne _ _ _ _ hqd, Stat_remove_ne _ _ _ hq1]
          exact hfr q hq
    · rw [hmk] at hfr
      exact hfr q hq

/-- Making the directory `dir/c` when `dir` is a directory where entries may be
created and no regular file is in the way: it succeeds, `dir/c` is a directory
afterwards, nothing else changes. -/
theorem MkdirAll_child (fs : FS) (dir : Path) (c : String)
    (hdir : Stat fs dir = some Node.dir) (hfree : ∀ data, Stat fs (dir ++ [c]) ≠ some (Node.file data))
    (hw : refused fs.env dir = none) :
    ∃ fs1, MkdirAll fs (dir ++ [c]) = (none, fs1) ∧ Stat fs1 (dir ++ [c]) = some Node.dir ∧
      fs1.env = fs.env ∧ ∀ q, q ≠ dir ++ [c] → Stat fs1 q = Stat fs q := by
  rcases h : Stat fs (dir ++ [c]) with _ | node
  · refine ⟨write fs (dir ++ [c]) Node.dir, MkdirAll_of_parent fs _ h ?_ ?_, ?_, rfl, ?_⟩
    · rw [List.dropLast_concat]
      exact hdir
    · rw [List.dropLast_concat]
      exact hw
    · exact Stat_write_self _ _ _ (by simp)
    · intro q hq
      exact Stat_write_ne _ _ _ _ hq
  · cases node with
    | file data => exact absurd h (hfree data)
    | dir => exact ⟨fs, MkdirAll_of_dir fs _ h, h, rfl, fun _ _ => rfl⟩

/-- The move that goes through: a regular file `dir/n`, to the directory `dir/c`, which
is a directory or can be made, where nothing is called `n` yet, and the kernel does
not refuse the rename. -/
theorem MoveFile_moves (m : FileMover) (now : Int) (fs : FS) (dir : Path) (n c : String)
    (data : List Nat) (hdry : m.DryRun = false) (hn : ValidName n)
    (hdir : Stat fs dir = some Node.dir)
    (hfile : Stat fs (dir ++ [n]) = some (Node.file data))
    (hcat : ∀ d, Stat fs (dir ++ [c]) ≠ some (Node.file d))
    (hfree : Stat fs (dir ++ [c, n]) = none)
    (hallowed : renameRefused fs.env (dir ++ [n]) (dir ++ [c, n]) = none) :
    (MoveFile m now fs (dir ++ [n]) (dir ++ [c])).1 = .ok (dir ++ [c, n]) ∧
    Stat (MoveFile m now fs (dir ++ [n]) (dir ++ [c])).2 (dir ++ [n]) = none ∧
    Stat (MoveFile m now fs (dir ++ [n]) (dir ++ [c])).2 (dir ++ [c, n]) = some (Node.file data) ∧
    Stat (MoveFile m now fs (dir ++ [n]) (dir ++ [c])).2 (dir ++ [c]) = some Node.dir ∧
    (MoveFile m now fs (dir ++ [n]) (dir ++ [c])).2.env = fs.env ∧
    ∀ q, q ≠ dir ++ [n] → q ≠ dir ++ [c, n] → q ≠ dir ++ [c] →
      Stat (MoveFile m now fs (dir ++ [n]) (dir ++ [c])).2 q = Stat fs q := by
  have hnc : dir ++ [n] ≠ dir ++ [c] := by
    intro e
    rw [e] at hfile
    exact hcat data hfile
  have hlen1 : dir ++ [n] ≠ dir ++ [c, n] := by simp
  have hlen2 : dir ++ [c, n] ≠ dir ++ [c] := by simp
  have hjoin : dir ++ [c] ++ [n] = dir ++ [c, n] := by simp
  have hw : refused fs.env dir = none := by
    have := renameRefused_none _ _ _ hallowed
    rw [List.dropLast_concat] at this
    exact this
  obtain ⟨fs1, hmk, hd1, henv1, hfr1⟩ := MkdirAll_child fs dir c hdir hcat hw
  have hsrc1 : Stat fs1 (dir ++ [n]) = some (Node.file data) := by rw [hfr1 _ hnc, hfile]
  have hfree1 : Stat fs1 (dir ++ [c, n]) = none := by rw [hfr1 _ hlen2, hfree]
  have hren : Rename fs1 (dir ++ [n]) (dir ++ [c, n])
      = .ok (write (remove fs1 (dir ++ [n])) (dir ++ [c, n]) (Node.file data)) := by
    apply Rename_file_of fs1 _ _ data hsrc1 hlen1
    · rw [← hjoin, List.dropLast_concat]
      exact hd1
    · rw [hfree1]; simp
    · rw [henv1]; exact hallowed
  have hres : MoveFile m now fs (dir ++ [n]) (dir ++ [c])
      = (.ok (dir ++ [c, n]), write (remove fs1 (dir ++ [n])) (dir ++ [c, n]) (Node.file data)) := by
    unfold MoveFile
    simp only [hdry, Bool.not_false, if_true, hmk, Base_child, Join_valid _ _ hn, hjoin, hfree1,
      hren]
  rw [hres]
  refine ⟨rfl, ?_, ?_, ?_, ?_, ?_⟩
  · show Stat (write _ _ _) _ = none
    rw [Stat_write_ne _ _ _ _ hlen1, Stat_remove_self _ _ (by simp)]
  · exact Stat_write_self _ _ _ (by simp)
  · show Stat (write _ _ _) _ = _
    rw [Stat_write_ne _ _ _ _ hlen2.symm, Stat_remove_ne _ _ _ hnc.symm, hd1]
  · exact henv1
  · intro q h1 h2 h3
    show Stat (write _ _ _) _ = _
    rw [Stat_write_ne _ _ _ _ h2, Stat_remove_ne _ _ _ h1, hfr1 _ h3]

end fileops

/-! ## What a run changes -/

namespace app

open os filepath strings classifier fileops

/-- The categories of the classifier `main` builds are plain names. -/
theorem Classify_valid (tbl : Char → Char) (order : List (String × List String))
    (h : order.Perm DefaultMappings) (filename : String) :
    ValidName (Classify tbl (NewClassifier tbl order) filename) := by
  have hall : ∀ ce ∈ DefaultMappings, ValidName ce.1 := by decide
  by_cases hk : ∃ ce ∈ DefaultMappings, ToLower tbl (Ext filename) ∈ ce.2
  · obtain ⟨ce, hce, hkc⟩ := hk
    rw [Classify_listed tbl order h filename ce hce hkc]
    exact hall ce hce
  · rw [Classify_unlisted tbl order h filename (fun ce hce hkc => hk ⟨ce, hce, hkc⟩)]
    decide

/-- The tasks of a listing: one for each entry that passes the test, with the entry's
path inside the source directory. -/
theorem tasksOf_spec (a : App) (w : World) (fs : FS) (entries : List DirEntry)
    (hread : ReadDir w fs a.Config.SourceDir = .ok entries) :
    ((tasksOf a w entries).map (fun t => t.info.name)).Nodup ∧
    ∀ t ∈ tasksOf a w entries,
      t.info ∈ entries ∧ isSent w t.info = true ∧
      t.path = a.Config.SourceDir ++ [t.info.name] ∧ ValidName t.info.name := by
  obtain ⟨hnd, hent⟩ := ReadDir_spec w fs _ entries hread
  constructor
  · unfold tasksOf
    rw [List.map_map]
    have : ((fun t : fileTask => t.info.name) ∘ fun entry : DirEntry =>
        ({ path := Join a.Config.SourceDir entry.name, info := entry } : fileTask))
        = DirEntry.name := rfl
    rw [this]
    exact (List.filter_sublist _).map _ |>.nodup hnd
  · intro t ht
    unfold tasksOf at ht
    rw [List.mem_map] at ht
    obtain ⟨e, he, rfl⟩ := ht
    rw [List.mem_filter] at he
    exact ⟨he.1, he.2, Join_valid _ _ (hent e he.1).1, (hent e he.1).1⟩

/-- Entries whose tasks are not among those run stay what they are: the run touches
the top level of the source directory only at the files it moves. -/
theorem runOrder_frame (tbl : Char → Char) (a : App)
    (hcatv : ∀ name, ValidName (Classify tbl a.Classifier name))
    (order : List (Int × fileTask)) (st : RunState)
    (hnd : (order.map (fun x => x.2.info.name)).Nodup)
    (hwf : ∀ x ∈ order, x.2.path = a.Config.SourceDir ++ [x.2.info.name] ∧ ValidName x.2.info.name)
    (hfile : ∀ x ∈ order, ∃ d, Stat st.fs (a.Config.SourceDir ++ [x.2.info.name]) = some (Node.file d))
    (name : String) (hname : ∀ x ∈ order, x.2.info.name ≠ name)
    (hq : Stat st.fs (a.Config.SourceDir ++ [name]) ≠ none) :
    Stat (runOrder tbl a order st).fs (a.Config.SourceDir ++ [name])
      = Stat st.fs (a.Config.SourceDir ++ [name]) := by
  induction order generalizing st with
  | nil => rfl
  | cons x rest ih =>
    rw [runOrder_cons]
    obtain ⟨hpath, hval⟩ := hwf x (List.mem_cons_self _ _)
    obtain ⟨d, hd⟩ := hfile x (List.mem_cons_self _ _)
    obtain ⟨_, _, _, _, _, _, hfs⟩ := processFile_step tbl a x.1 x.2.path x.2.info st
    rw [List.map_cons, List.nodup_cons] at hnd
    have hstep : ∀ other : String, other ≠ x.2.info.name →
        Stat st.fs (a.Config.SourceDir ++ [other]) ≠ none →
        Stat (processFile tbl a x.1 x.2.path x.2.info st).fs (a.Config.SourceDir ++ [other])
          = Stat st.fs (a.Config.SourceDir ++ [other]) := by
      intro other hne hex
      rw [hfs, hpath]
      apply MoveFile_frame _ _ _ _ _ d (by rw [Base_child]; exact hval) hd _ hex
      · intro e
        exact hne (List.singleton_inj.1 (List.append_cancel_left e))
      · rw [Join_valid _ _ (hcatv _)]
        simp
    rw [ih _ hnd.2 (fun y hy => hwf y (List.mem_cons_of_mem _ hy))]
    · exact hstep name (fun e => hname x (List.mem_cons_self _ _) e.symm) hq
    · intro y hy
      obtain ⟨dy, hdy⟩ := hfile y (List.mem_cons_of_mem _ hy)
      refine ⟨dy, ?_⟩
      rw [hstep _ ?_ (by rw [hdy]; simp), hdy]
      intro e
      exact hnd.1 (List.mem_map.2 ⟨y, hy, e⟩)
    · exact fun y hy => hname y (List.mem_cons_of_mem _ hy)
    · rw [hstep name (fun e => hname x (List.mem_cons_self _ _) e.symm) hq]
      exact hq

theorem child_inj (dir : Path) (x y : String) (h : dir ++ [x] = dir ++ [y]) : x = y :=
  List.singleton_inj.1 (List.append_cancel_left h)

theorem grandchild_inj (dir : Path) (c x d y : String) (h : dir ++ [c, x] = dir ++ [d, y]) :
    x = y := by
  have := List.append_cancel_left h
  simp only [List.cons.injEq, and_true] at this
  exact this.2

/-- The run in which every move goes through: `DryRun` false, every task a regular
file at the top of the source directory, no regular file in the way of a category
directory, nothing under the task's name in its category directory, and no rename
refused by the kernel. -/
theorem runOrder_moves (tbl : Char → Char) (a : App) (hdry : a.Mover.DryRun = false)
    (hcatv : ∀ name, ValidName (Classify tbl a.Classifier name))
    (order : List (Int × fileTask)) (st : RunState)
    (hnd : (order.map (fun x => x.2.info.name)).Nodup)
    (hwf : ∀ x ∈ order, x.2.path = a.Config.SourceDir ++ [x.2.info.name] ∧ ValidName x.2.info.name)
    (hdir : Stat st.fs a.Config.SourceDir = some Node.dir)
    (hfile : ∀ x ∈ order, ∃ d, Stat st.fs (a.Config.SourceDir ++ [x.2.info.name]) = some (Node.file d))
    (hcat : ∀ x ∈ order, ∀ d, Stat st.fs
        (a.Config.SourceDir ++ [Classify tbl a.Classifier x.2.info.name]) ≠ some (Node.file d))
    (hfree : ∀ x ∈ order, Stat st.fs
        (a.Config.SourceDir ++ [Classify tbl a.Classifier x.2.info.name, x.2.info.name]) = none)
    (hallowed : ∀ x ∈ order, renameRefused st.fs.env (a.Config.SourceDir ++ [x.2.info.name])
        (a.Config.SourceDir ++ [Classify tbl a.Classifier x.2.info.name, x.2.info.name]) = none) :
    (runOrder tbl a order st).stats.FilesMoved = st.stats.FilesMoved + order.length ∧
    (runOrder tbl a order st).stats.FilesFailed = st.stats.FilesFailed ∧
    (∀ x ∈ order,
      Stat (runOrder tbl a order st).fs
          (a.Config.SourceDir ++ [Classify tbl a.Classifier x.2.info.name, x.2.info.name])
        = Stat st.fs (a.Config.SourceDir ++ [x.2.info.name]) ∧
      Stat (runOrder tbl a order st).fs (a.Config.SourceDir ++ [x.2.info.name]) = none) ∧
    (∀ q, (∀ x ∈ order, q ≠ a.Config.SourceDir ++ [x.2.info.name] ∧
        q ≠ a.Config.SourceDir ++ [Classify tbl a.Classifier x.2.info.name, x.2.info.name] ∧
        q ≠ a.Config.SourceDir ++ [Classify tbl a.Classifier x.2.info.name]) →
      Stat (runOrder tbl a order st).fs q = Stat st.fs q) := by
  induction order generalizing st with
  | nil =>
    exact ⟨by simp [runOrder], rfl, fun x hx => absurd hx (List.not_mem_nil _), fun q _ => rfl⟩
  | cons x rest ih =>
    rw [runOrder_cons]
    have hx := List.mem_cons_self x rest
    obtain ⟨hpath, hval⟩ := hwf x hx
    obtain ⟨d, hd⟩ := hfile x hx
    rw [List.map_cons, List.nodup_cons] at hnd
    obtain ⟨b, _, hmoved, hfailed, _, hb, hfs⟩ := processFile_step tbl a x.1 x.2.path x.2.info st
    rw [Join_valid _ _ (hcatv _)] at hb hfs
    generalize hst1 : processFile tbl a x.1 x.2.path x.2.info st = st1 at hmoved hfailed hb hfs ⊢
    rw [hpath] at hb hfs
    obtain ⟨r1, r2, r3, r4, renv, r5⟩ := MoveFile_moves a.Mover x.1 st.fs a.Config.SourceDir
      x.2.info.name (Classify tbl a.Classifier x.2.info.name) d hdry hval hdir hd (hcat x hx)
      (hfree x hx) (hallowed x hx)
    rw [← hfs] at r2 r3 r4 renv r5
    have hbt : b = true := hb.2 ⟨_, r1⟩
    subst hbt
    -- the other tasks are not disturbed
    have hne : ∀ y ∈ rest, y.2.info.name ≠ x.2.info.name :=
      fun y hy e => hnd.1 (List.mem_map.2 ⟨y, hy, e⟩)
    have hkeep : ∀ y ∈ rest,
        Stat st1.fs (a.Config.SourceDir ++ [y.2.info.name])
          = Stat st.fs (a.Config.SourceDir ++ [y.2.info.name]) := by
      intro y hy
      obtain ⟨dy, hdy⟩ := hfile y (List.mem_cons_of_mem _ hy)
      apply r5
      · exact fun e => hne y hy (child_inj _ _ _ e)
      · simp
      · intro e
        rw [e] at hdy
        exact hcat x hx dy hdy
    obtain ⟨i1, i2, i3, i4⟩ := ih st1 hnd.2
      (fun y hy => hwf y (List.mem_cons_of_mem _ hy))
      (by rw [r5 _ (by simp) (by simp) (by simp)]; exact hdir)
      (fun y hy => by
        obtain ⟨dy, hdy⟩ := hfile y (List.mem_cons_of_mem _ hy)
        exact ⟨dy, by rw [hkeep y hy, hdy]⟩)
      (fun y hy dy => by
        by_cases hc : Classify tbl a.Classifier y.2.info.name = Classify tbl a.Classifier x.2.info.name
        · rw [hc, r4]; simp
        · rw [r5 _ ?_ (by simp) (fun e => hc (child_inj _ _ _ e))]
          · exact hcat y (List.mem_cons_of_mem _ hy) dy
          · intro e
            have hcy := hcat y (List.mem_cons_of_mem _ hy) d
            rw [e] at hcy
            exact hcy hd)
      (fun y hy => by
        rw [r5 _ (by simp) (fun e => hne y hy (grandchild_inj _ _ _ _ _ e)) (by simp)]
        exact hfree y (List.mem_cons_of_mem _ hy))
      (fun y hy => by
        rw [renv]
        exact hallowed y (List.mem_cons_of_mem _ hy))
    refine ⟨?_, ?_, ?_, ?_⟩
    · rw [i1, hmoved]
      simp only [if_true, List.length_cons]
      push_cast
      ring
    · rw [i2, hfailed]
      simp
    · intro y hy
      rcases List.mem_cons.1 hy with rfl | hy
      · constructor
        · rw [i4 _ (fun z hz => ⟨by simp, fun e => hne z hz (grandchild_inj _ _ _ _ _ e).symm,
            by simp⟩), r3, hd]
        · rw [i4 _ (fun z hz => ⟨fun e => hne z hz (child_inj _ _ _ e).symm, by simp, ?_⟩), r2]
          intro e
          have hcz := hcat z (List.mem_cons_of_mem _ hz) d
          rw [← e] at hcz
          exact hcz hd
      · obtain ⟨j1, j2⟩ := i3 y hy
        exact ⟨by rw [j1, hkeep y hy], j2⟩
    · intro q hq
      obtain ⟨q1, q2, q3⟩ := hq x hx
      rw [i4 q (fun z hz => hq z (List.mem_cons_of_mem _ hz)), r5 q q1 q2 q3]

end app

/-! ## `Run` -/

namespace app

open os filepath strings classifier fileops

/-- The state `Run` starts the workers in. -/
theorem Counted_start (fs : FS) : Counted { fs := fs, stats := ⟨0, 0, 0, 0⟩, calls := [] } :=
  ⟨rfl, rfl, rfl⟩

theorem ReadDir_ok_dir (w : World) (fs : FS) (dir : Path) (entries : List DirEntry)
    (h : ReadDir w fs dir = .ok entries) : Stat fs dir = some Node.dir := by
  unfold ReadDir at h
  split at h
  · cases h
  · cases h
  · assumption

/-- When the listing succeeds, `Run` returns `nil` and its effect is that of the
`processFile` calls of the tasks, each made once, in some order. -/
theorem Run_of_read (tbl : Char → Char) (a : App) (w : World) (fs : FS)
    (entries : List DirEntry) (hread : ReadDir w fs a.Config.SourceDir = .ok entries) :
    ∃ order : List (Int × fileTask), (order.map Prod.snd).Perm (tasksOf a w entries) ∧
      Run tbl a w fs
        = (.ok (runOrder tbl a order { fs := fs, stats := ⟨0, 0, 0, 0⟩, calls := [] }).stats,
           runOrder tbl a order { fs := fs, stats := ⟨0, 0, 0, 0⟩, calls := [] }) := by
  obtain ⟨order, hperm, hrun⟩ := drain_eq_runOrder tbl a w (tasksOf a w entries).length 0
    (tasksOf a w entries) { fs := fs, stats := ⟨0, 0, 0, 0⟩, calls := [] } rfl
  refine ⟨order, hperm, ?_⟩
  unfold Run
  simp only [ReadDir_ok_dir w fs _ entries hread, hread, hrun]

/-- When `Run` returns an error, nothing was done. -/
theorem Run_error (tbl : Char → Char) (a : App) (w : World) (fs : FS) (e : RunError)
    (h : (Run tbl a w fs).1 = .error e) :
    (Stat fs a.Config.SourceDir = none ∨ (∃ d, Stat fs a.Config.SourceDir = some (Node.file d)) ∨
      ∃ e, ReadDir w fs a.Config.SourceDir = .error e) ∧
    (Run tbl a w fs).2.fs = fs ∧ (Run tbl a w fs).2.calls = [] := by
  rcases hst : Stat fs a.Config.SourceDir with _ | node
  · refine ⟨Or.inl rfl, ?_, ?_⟩ <;> simp only [Run, hst]
  · cases node with
    | file d => refine ⟨Or.inr (Or.inl ⟨d, rfl⟩), ?_, ?_⟩ <;> simp only [Run, hst]
    | dir =>
      rcases hrd : ReadDir w fs a.Config.SourceDir with e | entries
      · refine ⟨Or.inr (Or.inr ⟨e, rfl⟩), ?_, ?_⟩ <;> simp only [Run, hst, hrd]
      · obtain ⟨order, _, hrun⟩ := Run_of_read tbl a w fs entries hrd
        rw [hrun] at h
        cases h

/-- When the listing succeeds: `nil`, with the `MoveFile` calls those of the entries
that pass the scan's test, each once, and the counters counting them. -/
theorem Run_ok_counts (tbl : Char → Char) (a : App) (w : World) (fs : FS) :
    ∀ entries, ReadDir w fs a.Config.SourceDir = .ok entries →
      ∃ stats, (Run tbl a w fs).1 = .ok stats ∧
        ((Run tbl a w fs).2.calls.map MoveCall.srcPath).Perm
          ((entries.filter (isSent w)).map (fun e => Join a.Config.SourceDir e.name)) ∧
        stats.FilesMoved = ((Run tbl a w fs).2.calls.countP (fun c => c.succeeded) : Nat) ∧
        stats.FilesFailed = ((Run tbl a w fs).2.calls.countP (fun c => !c.succeeded) : Nat) ∧
        stats.FilesMoved + stats.FilesFailed = ((entries.filter (isSent w)).length : Nat) := by
  intro entries hread
  obtain ⟨order, hperm, hrun⟩ := Run_of_read tbl a w fs entries hread
  obtain ⟨⟨c1, c2, _⟩, hcalls⟩ := runOrder_counted tbl a order _ (Counted_start fs)
  rw [hrun]
  refine ⟨_, rfl, ?_, c1, c2, ?_⟩
  · simp only
    rw [hcalls]
    simp only [List.map_nil, List.append_nil]
    have hmap : order.map (fun x => x.2.path) = (order.map Prod.snd).map fileTask.path := by
      rw [List.map_map]; rfl
    have htasks : (tasksOf a w entries).map fileTask.path
        = (entries.filter (isSent w)).map (fun e => Join a.Config.SourceDir e.name) := by
      unfold tasksOf
      rw [List.map_map]; rfl
    rw [hmap, ← htasks]
    exact (List.reverse_perm _).trans (hperm.map _)
  · rw [c1, c2]
    have hlen : (runOrder tbl a order { fs := fs, stats := ⟨0, 0, 0, 0⟩, calls := [] }).calls.length
        = (entries.filter (isSent w)).length := by
      have := congrArg List.length hcalls
      simp only [List.length_map, List.map_nil, List.append_nil, List.length_reverse] at this
      rw [this]
      have h2 := hperm.length_eq
      simp only [List.length_map] at h2
      rw [h2]
      unfold tasksOf
      rw [List.length_map]
    rw [← hlen, List.length_eq_countP_add_countP (fun c : MoveCall => c.succeeded)]
    push_cast
    simp


theorem Run_ok_skipped (tbl : Char → Char) (a : App) (w : World) (fs : FS)
    (entries : List DirEntry) (hread : ReadDir w fs a.Config.SourceDir = .ok entries) :
    (Run tbl a w fs).2.stats.FilesSkipped = 0 := by
  obtain ⟨order, _, hrun⟩ := Run_of_read tbl a w fs entries hread
  obtain ⟨⟨_, _, c3⟩, _⟩ := runOrder_counted tbl a order _ (Counted_start fs)
  rw [hrun]
  exact c3

theorem isSent_iff (w : World) (e : DirEntry) :
    isSent w e = true ↔
      (e.isDir = false ∧ HasPrefix e.name "." = false ∧
        (w.executableFails = false → Base w.executable ≠ e.name)) := by
  unfold isSent Executable
  cases e.isDir <;> cases HasPrefix e.name "." <;> cases hexe : w.executableFails <;> simp

/-- An entry that passes the test is a regular file at the top of the directory. -/
theorem sent_isFile (w : World) (fs : FS) (dir : Path) (entries : List DirEntry)
    (hread : ReadDir w fs dir = .ok entries) (e : DirEntry) (he : e ∈ entries)
    (hsent : isSent w e = true) : ∃ d, Stat fs (dir ++ [e.name]) = some (Node.file d) := by
  obtain ⟨_, hent⟩ := ReadDir_spec w fs dir entries hread
  obtain ⟨_, hex, _, hdir⟩ := hent e he
  have hnd : e.isDir = false := ((isSent_iff w e).1 hsent).1
  rcases hst : Stat fs (dir ++ [e.name]) with _ | node
  · exact absurd hst hex
  · cases node with
    | file d => exact ⟨d, rfl⟩
    | dir =>
      rw [hdir.2 hst] at hnd
      cases hnd

/-- The tasks in the order the workers take them: distinct names, each the task of
an entry that passed the test, and every such entry among them. -/
theorem order_spec (a : App) (w : World) (fs : FS) (entries : List DirEntry)
    (hread : ReadDir w fs a.Config.SourceDir = .ok entries) (order : List (Int × fileTask))
    (hperm : (order.map Prod.snd).Perm (tasksOf a w entries)) :
    (order.map (fun x => x.2.info.name)).Nodup ∧
    (∀ x ∈ order, x.2.info ∈ entries ∧ isSent w x.2.info = true ∧
      x.2.path = a.Config.SourceDir ++ [x.2.info.name] ∧ ValidName x.2.info.name) ∧
    (∀ e ∈ entries, isSent w e = true → ∃ x ∈ order, x.2.info = e) := by
  obtain ⟨hnd, hspec⟩ := tasksOf_spec a w fs entries hread
  refine ⟨?_, ?_, ?_⟩
  · have hmap : order.map (fun x => x.2.info.name)
        = (order.map Prod.snd).map (fun t => t.info.name) := by
      rw [List.map_map]; rfl
    rw [hmap]
    exact ((hperm.map _).nodup_iff).2 hnd
  · intro x hx
    exact hspec x.2 (hperm.mem_iff.1 (List.mem_map.2 ⟨x, hx, rfl⟩))
  · intro e he hsent
    have hmem : ({ path := Join a.Config.SourceDir e.name, info := e } : fileTask)
        ∈ tasksOf a w entries := by
      unfold tasksOf
      exact List.mem_map.2 ⟨e, List.mem_filter.2 ⟨he, hsent⟩, rfl⟩
    obtain ⟨x, hx, hxe⟩ := List.mem_map.1 (hperm.mem_iff.2 hmem)
    exact ⟨x, hx, by rw [hxe]⟩

/-- Two entries of one listing with the same name are the same entry. -/
theorem entry_unique (w : World) (fs : FS) (dir : Path) (entries : List DirEntry)
    (hread : ReadDir w fs dir = .ok entries) (e1 e2 : DirEntry) (h1 : e1 ∈ entries)
    (h2 : e2 ∈ entries) (h : e1.name = e2.name) : e1 = e2 :=
  List.inj_on_of_nodup_map (ReadDir_spec w fs dir entries hread).1 h1 h2 h

/-- One `processFile` is one attempt: the same file system, the same two counters, the
same record. -/
theorem processFile_attemptOnce (tbl : Char → Char) (a : App) (x : Int × fileTask)
    (st : RunState) (t : Tally) (hfs : st.fs = t.fs) (hm : st.stats.FilesMoved = t.moved)
    (hf : st.stats.FilesFailed = t.failed) (hc : st.calls = t.attempts) :
    (processFile tbl a x.1 x.2.path x.2.info st).fs = (attemptOnce tbl a t x).fs ∧
    (processFile tbl a x.1 x.2.path x.2.info st).stats.FilesMoved = (attemptOnce tbl a t x).moved ∧
    (processFile tbl a x.1 x.2.path x.2.info st).stats.FilesFailed = (attemptOnce tbl a t x).failed ∧
    (processFile tbl a x.1 x.2.path x.2.info st).calls = (attemptOnce tbl a t x).attempts := by
  unfold processFile attemptOnce
  simp only
  rw [hfs]
  rcases MoveFile a.Mover x.1 t.fs x.2.path
      (Join a.Config.SourceDir (Classify tbl a.Classifier x.2.info.name)) with ⟨r, fs1⟩
  cases r with
  | error e => exact ⟨rfl, hm, by simp only [hf], by simp only [hc]⟩
  | ok p =>
    simp only
    cases x.2.info.Info fs1 with
    | none => exact ⟨rfl, by simp only [hm], hf, by simp only [hc]⟩
    | some size => exact ⟨rfl, by simp only [hm], hf, by simp only [hc]⟩

theorem runOrder_attempts (tbl : Char → Char) (a : App) (order : List (Int × fileTask))
    (st : RunState) (t : Tally) (hfs : st.fs = t.fs) (hm : st.stats.FilesMoved = t.moved)
    (hf : st.stats.FilesFailed = t.failed) (hc : st.calls = t.attempts) :
    (runOrder tbl a order st).fs = (order.foldl (attemptOnce tbl a) t).fs ∧
    (runOrder tbl a order st).stats.FilesMoved = (order.foldl (attemptOnce tbl a) t).moved ∧
    (runOrder tbl a order st).stats.FilesFailed = (order.foldl (attemptOnce tbl a) t).failed ∧
    (runOrder tbl a order st).calls = (order.foldl (attemptOnce tbl a) t).attempts := by
  induction order generalizing st t with
  | nil => exact ⟨hfs, hm, hf, hc⟩
  | cons x rest ih =>
    obtain ⟨h1, h2, h3, h4⟩ := processFile_attemptOnce tbl a x st t hfs hm hf hc
    rw [runOrder_cons, List.foldl_cons]
    exact ih _ _ h1 h2 h3 h4

/-- When the listing succeeds, the run is one attempt on each entry that passes the
scan's test, in some order. -/
theorem Run_attempts (tbl : Char → Char) (a : App) (w : World) (fs : FS)
    (entries : List DirEntry) (hread : ReadDir w fs a.Config.SourceDir = .ok entries) :
    ∃ order : List (Int × fileTask),
      (order.map (fun x => x.2.info)).Perm (entries.filter (isSent w)) ∧
      (∀ x ∈ order, x.2.path = Join a.Config.SourceDir x.2.info.name) ∧
      (Run tbl a w fs).1 = .ok (Run tbl a w fs).2.stats ∧
      (Run tbl a w fs).2.fs = (attemptEach tbl a order fs).fs ∧
      (Run tbl a w fs).2.stats.FilesMoved = (attemptEach tbl a order fs).moved ∧
      (Run tbl a w fs).2.stats.FilesFailed = (attemptEach tbl a order fs).failed ∧
      (Run tbl a w fs).2.calls = (attemptEach tbl a order fs).attempts := by
  obtain ⟨order, hperm, hrun⟩ := Run_of_read tbl a w fs entries hread
  refine ⟨order, ?_, ?_, ?_⟩
  · have hmap : order.map (fun x => x.2.info) = (order.map Prod.snd).map fileTask.info := by
      rw [List.map_map]; rfl
    have htasks : (tasksOf a w entries).map fileTask.info = entries.filter (isSent w) := by
      unfold tasksOf
      rw [List.map_map]
      exact List.map_id _
    rw [hmap, ← htasks]
    exact hperm.map _
  · intro x hx
    have hmem : x.2 ∈ tasksOf a w entries := hperm.mem_iff.1 (List.mem_map.2 ⟨x, hx, rfl⟩)
    unfold tasksOf at hmem
    obtain ⟨e, _, he⟩ := List.mem_map.1 hmem
    rw [← he]
  · rw [hrun]
    exact ⟨rfl, runOrder_attempts tbl a order _ _ rfl rfl rfl rfl⟩

end app

/-! ## The contract of `Run` -/

namespace app

open os filepath strings classifier fileops

/-- C8. Error tiers of `Run`: it returns an error exactly when the source path cannot
be stat'ed, is not a directory, or its listing fails, and then nothing has been done
(no `MoveFile` call, the file system as it was). Otherwise it returns `nil`, however
the individual moves end, and the run is one attempt per entry that passes the scan's
test, in the order the workers took them: `MoveFile` is called exactly once on each such
entry, on the path `SourceDir/<name>`; the file system after the run is the one those
calls leave, one after the other; `FilesMoved` is the number of those calls that
returned without error and `FilesFailed` the number that returned an error (the counts
of `attemptEach`, which counts by the result of `MoveFile`); the calls recorded are
those attempts with the outcome `MoveFile` had; so the two counters sum to the number
of those entries. -/
theorem Run_error_tiers (tbl : Char → Char) (a : App) (w : World) (fs : FS) :
    ((∃ e, (Run tbl a w fs).1 = .error e) ↔
      (Stat fs a.Config.SourceDir = none ∨ (∃ d, Stat fs a.Config.SourceDir = some (Node.file d)) ∨
        ∃ e, ReadDir w fs a.Config.SourceDir = .error e)) ∧
    ((∃ e, (Run tbl a w fs).1 = .error e) →
      (Run tbl a w fs).2.fs = fs ∧ (Run tbl a w fs).2.calls = []) ∧
    (∀ entries, ReadDir w fs a.Config.SourceDir = .ok entries →
      (∃ stats, (Run tbl a w fs).1 = .ok stats ∧
        ((Run tbl a w fs).2.calls.map MoveCall.srcPath).Perm
          ((entries.filter (isSent w)).map (fun e => Join a.Config.SourceDir e.name)) ∧
        stats.FilesMoved = ((Run tbl a w fs).2.calls.countP (fun c => c.succeeded) : Nat) ∧
        stats.FilesFailed = ((Run tbl a w fs).2.calls.countP (fun c => !c.succeeded) : Nat) ∧
        stats.FilesMoved + stats.FilesFailed = ((entries.filter (isSent w)).length : Nat)) ∧
      ∃ order : List (Int × fileTask),
        (order.map (fun x => x.2.info)).Perm (entries.filter (isSent w)) ∧
        (∀ x ∈ order, x.2.path = Join a.Config.SourceDir x.2.info.name) ∧
        (Run tbl a w fs).1 = .ok (Run tbl a w fs).2.stats ∧
        (Run tbl a w fs).2.fs = (attemptEach tbl a order fs).fs ∧
        (Run tbl a w fs).2.stats.FilesMoved = (attemptEach tbl a order fs).moved ∧
        (Run tbl a w fs).2.stats.FilesFailed = (attemptEach tbl a order fs).failed ∧
        (Run tbl a w fs).2.calls = (attemptEach tbl a order fs).attempts) := by
  refine ⟨⟨?_, ?_⟩, ?_, ?_⟩
  · rintro ⟨e, he⟩
    exact (Run_error tbl a w fs e he).1
  · intro h
    rcases hst : Stat fs a.Config.SourceDir with _ | node
    · exact ⟨RunError.accessSourceDirectory, by simp only [Run, hst]⟩
    · cases node with
      | file d => exact ⟨RunError.notADirectory, by simp only [Run, hst]⟩
      | dir =>
        rcases h with h | ⟨d, h⟩ | ⟨e, h⟩
        · rw [hst] at h; cases h
        · rw [hst] at h; cases h
        · exact ⟨RunError.readDirectory e, by simp only [Run, hst, h]⟩
  · rintro ⟨e, he⟩
    exact (Run_error tbl a w fs e he).2
  · intro entries hread
    exact ⟨Run_ok_counts tbl a w fs entries hread, Run_attempts tbl a w fs entries hread⟩

/-- C8 on a directory holding `a.txt` and a regular file named `Others`: the file
`Others` cannot be moved (its category directory would be `Others` itself: `MoveFile`
returns an error on it, and without error on `a.txt`), `a.txt` is; `Run` returns `nil`
with one moved, one failed. -/
theorem Run_error_tiers_witness :
    ReadDir (scenario.world scenario.installed) scenario.othersInTheWay ["home"]
      = .ok [⟨"Others", false, ["home"], none⟩, ⟨"a.txt", false, ["home"], none⟩] ∧
    (Run id (scenario.organizer false) (scenario.world scenario.installed) scenario.othersInTheWay).1
      = .ok ⟨1, 0, 1, 0⟩ ∧
    (MoveFile (scenario.organizer false).Mover 0 scenario.othersInTheWay
      ["home", "Others"] ["home", "Others"]).1 = .error (.createDirectory Errno.ENOTDIR) ∧
    ∃ stats, (Run id (scenario.organizer false) (scenario.world scenario.installed) scenario.othersInTheWay).1
        = .ok stats ∧ stats.FilesMoved + stats.FilesFailed = 2 :=
  ⟨by decide, by decide, by decide,
   match ((Run_error_tiers id (scenario.organizer false) (scenario.world scenario.installed)
      scenario.othersInTheWay).2.2
      [⟨"Others", false, ["home"], none⟩, ⟨"a.txt", false, ["home"], none⟩] (by decide)).1 with
   | ⟨stats, h1, _, _, _, h5⟩ => ⟨stats, h1, h5.trans (by decide)⟩⟩

/-- C7 as stated fails when `os.Executable()` returns an error: the check against
the executable's name is then left out. The executable is `/home/file-organizer`, in
the source directory; its entry is no directory, is not hidden, and bears the base
name of the running executable, yet it is handed to a worker, which moves it to
`/home/Others/file-organizer`. -/
theorem Run_skip_rule_counterexample :
    (⟨"file-organizer", false, ["home"], none⟩ : DirEntry) ∈
      [(⟨"sub", true, ["home"], none⟩ : DirEntry), ⟨".hidden", false, ["home"], none⟩,
       ⟨"file-organizer", false, ["home"], none⟩, ⟨"x.mp3", false, ["home"], none⟩] ∧
    ReadDir { scenario.world ["home", "file-organizer"] with executableFails := true }
        scenario.mixed ["home"]
      = .ok [⟨"sub", true, ["home"], none⟩, ⟨".hidden", false, ["home"], none⟩,
             ⟨"file-organizer", false, ["home"], none⟩, ⟨"x.mp3", false, ["home"], none⟩] ∧
    Base ["home", "file-organizer"] = "file-organizer" ∧
    Join ["home"] "file-organizer" ∈
      (Run id (scenario.organizer false)
        { scenario.world ["home", "file-organizer"] with executableFails := true }
        scenario.mixed).2.calls.map MoveCall.srcPath ∧
    Stat (Run id (scenario.organizer false)
        { scenario.world ["home", "file-organizer"] with executableFails := true }
        scenario.mixed).2.fs ["home", "file-organizer"] = none ∧
    Stat (Run id (scenario.organizer false)
        { scenario.world ["home", "file-organizer"] with executableFails := true }
        scenario.mixed).2.fs ["home", "Others", "file-organizer"] = some (Node.file [3]) := by
  decide

/-- C7, amended. Skip rule of `Run`, for the program as `main` builds it and every
listing of the source directory: an entry passes the scan's test exactly when it is
not a directory, its name does not begin with `.`, and, provided `os.Executable()`
succeeds, its name is not the base name of the running executable; `MoveFile` is
called on an entry's path exactly when the entry passes; every entry that does not
pass is afterwards what it was, at its path; `FilesSkipped` stays `0` and `FilesMoved
+ FilesFailed` is the number of entries that pass; and when no entry passes (an empty
directory included) `Run` returns `nil` with all counters zero and the file system
unchanged. -/
theorem Run_skip_rule (tbl : Char → Char) (order : List (String × List String)) (dir : Path)
    (dryRun verbose : Bool) (w : World) (fs : FS) (entries : List DirEntry)
    (hperm : order.Perm DefaultMappings) (hread : ReadDir w fs dir = .ok entries) :
    (∀ e : DirEntry, isSent w e = true ↔
      (e.isDir = false ∧ HasPrefix e.name "." = false ∧
        (w.executableFails = false → Base w.executable ≠ e.name))) ∧
    (∀ e ∈ entries,
      (Join dir e.name ∈ (Run tbl (mkApp tbl order dir dryRun verbose) w fs).2.calls.map
          MoveCall.srcPath ↔ isSent w e = true)) ∧
    (∀ e ∈ entries, isSent w e = false →
      Stat fs (Join dir e.name) ≠ none ∧
      Stat (Run tbl (mkApp tbl order dir dryRun verbose) w fs).2.fs (Join dir e.name)
        = Stat fs (Join dir e.name)) ∧
    (∃ stats, (Run tbl (mkApp tbl order dir dryRun verbose) w fs).1 = .ok stats ∧
      stats.FilesSkipped = 0 ∧
      stats.FilesMoved + stats.FilesFailed = ((entries.filter (isSent w)).length : Nat)) ∧
    ((∀ e ∈ entries, isSent w e = false) →
      (Run tbl (mkApp tbl order dir dryRun verbose) w fs).1 = .ok ⟨0, 0, 0, 0⟩ ∧
      (Run tbl (mkApp tbl order dir dryRun verbose) w fs).2.fs = fs) := by
  have hread' : ReadDir w fs (mkApp tbl order dir dryRun verbose).Config.SourceDir
      = .ok entries := hread
  obtain ⟨hnames, hent⟩ := ReadDir_spec w fs dir entries hread
  obtain ⟨ord, hordperm, hrun⟩ := Run_of_read tbl (mkApp tbl order dir dryRun verbose) w fs
    entries hread'
  obtain ⟨ond, ospec, _⟩ := order_spec (mkApp tbl order dir dryRun verbose) w fs entries hread'
    ord hordperm
  obtain ⟨stats, hstats, hcalls, _, _, hsum⟩ :=
    Run_ok_counts tbl (mkApp tbl order dir dryRun verbose) w fs entries hread'
  refine ⟨isSent_iff w, ?_, ?_, ?_, ?_⟩
  · intro e he
    rw [hcalls.mem_iff, List.mem_map]
    constructor
    · rintro ⟨e2, he2, hj⟩
      rw [List.mem_filter] at he2
      have hj2 : dir ++ [e2.name] = dir ++ [e.name] := by
        rw [← Join_valid dir _ (hent e2 he2.1).1, ← Join_valid dir _ (hent e he).1]
        exact hj
      rw [← entry_unique w fs dir entries hread e2 e he2.1 he (child_inj _ _ _ hj2)]
      exact he2.2
    · intro hs
      exact ⟨e, List.mem_filter.2 ⟨he, hs⟩, rfl⟩
  · intro e he hskip
    rw [Join_valid dir _ (hent e he).1]
    refine ⟨(hent e he).2.1, ?_⟩
    rw [hrun]
    apply runOrder_frame tbl (mkApp tbl order dir dryRun verbose)
      (fun name => Classify_valid tbl order hperm name) ord _ ond
      (fun x hx => (ospec x hx).2.2)
    · intro x hx
      exact sent_isFile w fs dir entries hread _ (ospec x hx).1 (ospec x hx).2.1
    · intro x hx hname
      have := entry_unique w fs dir entries hread _ _ (ospec x hx).1 he hname
      rw [← this, (ospec x hx).2.1] at hskip
      cases hskip
    · exact (hent e he).2.1
  · refine ⟨stats, hstats, ?_, hsum⟩
    have := Run_ok_skipped tbl (mkApp tbl order dir dryRun verbose) w fs entries hread'
    rw [hrun] at this hstats
    injection hstats with hstats
    rw [← hstats]
    exact this
  · intro hall
    have hnil : tasksOf (mkApp tbl order dir dryRun verbose) w entries = [] := by
      unfold tasksOf
      rw [List.map_eq_nil_iff, List.filter_eq_nil_iff]
      intro e he
      rw [hall e he]
      simp
    unfold Run
    simp only [ReadDir_ok_dir w fs _ entries hread', hread', hnil, List.length_nil, drain,
      and_self]

/-- C7 (amended) on a directory holding a subdirectory, a hidden file, a file with the
executable's name and `x.mp3`: only `x.mp3` is handed to a worker; the other three
stay. -/
theorem Run_skip_rule_witness :
    ReadDir (scenario.world scenario.installed) scenario.mixed ["home"]
      = .ok [⟨"sub", true, ["home"], none⟩, ⟨".hidden", false, ["home"], none⟩,
             ⟨"file-organizer", false, ["home"], none⟩, ⟨"x.mp3", false, ["home"], none⟩] ∧
    (Run id (mkApp id DefaultMappings ["home"] false false)
        (scenario.world scenario.installed) scenario.mixed).2.calls
      = [⟨["home", "x.mp3"], ["home", "Audio"], true⟩] ∧
    Stat (Run id (mkApp id DefaultMappings ["home"] false false)
        (scenario.world scenario.installed) scenario.mixed).2.fs
        (Join ["home"] "file-organizer")
      = Stat scenario.mixed (Join ["home"] "file-organizer") :=
  ⟨by decide, by decide,
   ((Run_skip_rule id DefaultMappings ["home"] false false
      (scenario.world scenario.installed) scenario.mixed
      [⟨"sub", true, ["home"], none⟩, ⟨".hidden", false, ["home"], none⟩,
       ⟨"file-organizer", false, ["home"], none⟩, ⟨"x.mp3", false, ["home"], none⟩]
      (List.Perm.refl _) (by decide)).2.2.1
      ⟨"file-organizer", false, ["home"], none⟩ (by decide) (by decide)).2⟩

/-- C5 as stated fails in four ways.
(a) The executable sits in the source directory under a category's name. The
executable is `/home/Images`; `/home` holds it (skipped by the scan, as the
executable) and `a.png`. The one eligible entry `a.png` has a known extension and
there is nothing called `a.png` under `/home/Images`; yet the run ends with `a.png`
still at the top level, `FilesMoved = 0` and `FilesFailed = 1`, because `/home/Images`
cannot be made a directory.
(b) A file merely bears the executable's base name. The executable is
`/usr/local/bin/file-organizer.bin`; `/home` holds another `file-organizer.bin` and
`a.txt`, two regular, non-hidden files other than the executable, both with a known
extension and colliding with nothing; yet the run ends with `FilesMoved = 1` and
`file-organizer.bin` still at the top level: the scan skips it for its name.
(c) The category directory is on another file system. `/home/Documents` is an empty
directory and a mount point; `/home` holds `a.txt`, which has a known extension and
collides with nothing; `os.Rename` answers `EXDEV`, and the run ends with `a.txt`
still at the top level, `FilesMoved = 0` and `FilesFailed = 1`.
(d) The source directory is not writable. `/home` holds `a.txt` and the process may
not create entries in `/home`; `os.MkdirAll` answers `EACCES`, and the run ends with
`a.txt` still at the top level, `FilesMoved = 0` and `FilesFailed = 1`. -/
theorem Run_moves_all_counterexample :
    (ReadDir (scenario.world ["home", "Images"]) scenario.blocked ["home"]
      = .ok [⟨"Images", false, ["home"], none⟩, ⟨"a.png", false, ["home"], none⟩] ∧
    Join ["home"] "Images" = ["home", "Images"] ∧
    Classify id (scenario.organizer false).Classifier "a.png" = Images ∧ Images ≠ Others ∧
    Stat scenario.blocked (Join (Join ["home"] Images) "a.png") = none ∧
    (Run id (scenario.organizer false) (scenario.world ["home", "Images"])
        scenario.blocked).1 = .ok ⟨0, 0, 1, 0⟩ ∧
    Stat (Run id (scenario.organizer false) (scenario.world ["home", "Images"])
        scenario.blocked).2.fs (Join ["home"] "a.png") = some (Node.file [137, 80]) ∧
    Stat (Run id (scenario.organizer false) (scenario.world ["home", "Images"])
        scenario.blocked).2.fs (Join (Join ["home"] Images) "a.png") = none) ∧
    (ReadDir (scenario.world ["usr", "local", "bin", "file-organizer.bin"]) scenario.sameName
        ["home"]
      = .ok [⟨"file-organizer.bin", false, ["home"], none⟩, ⟨"a.txt", false, ["home"], none⟩] ∧
    Join ["home"] "file-organizer.bin" ≠ ["usr", "local", "bin", "file-organizer.bin"] ∧
    Classify id (scenario.organizer false).Classifier "file-organizer.bin" = Executables ∧
    Classify id (scenario.organizer false).Classifier "a.txt" = Documents ∧
    Executables ≠ Others ∧ Documents ≠ Others ∧
    Stat scenario.sameName (Join (Join ["home"] Executables) "file-organizer.bin") = none ∧
    Stat scenario.sameName (Join (Join ["home"] Documents) "a.txt") = none ∧
    (Run id (scenario.organizer false)
        (scenario.world ["usr", "local", "bin", "file-organizer.bin"])
        scenario.sameName).1 = .ok ⟨1, 0, 0, 0⟩ ∧
    Stat (Run id (scenario.organizer false)
        (scenario.world ["usr", "local", "bin", "file-organizer.bin"])
        scenario.sameName).2.fs (Join ["home"] "file-organizer.bin")
      = some (Node.file [127, 69])) ∧
    (ReadDir (scenario.world scenario.installed) scenario.otherDisk ["home"]
      = .ok [⟨"Documents", true, ["home"], none⟩, ⟨"a.txt", false, ["home"], none⟩] ∧
    Classify id (scenario.organizer false).Classifier "a.txt" = Documents ∧
    Stat scenario.otherDisk (Join ["home"] Documents) = some Node.dir ∧
    Stat scenario.otherDisk (Join (Join ["home"] Documents) "a.txt") = none ∧
    Rename scenario.otherDisk ["home", "a.txt"] ["home", "Documents", "a.txt"]
      = .error Errno.EXDEV ∧
    (Run id (scenario.organizer false) (scenario.world scenario.installed)
        scenario.otherDisk).1 = .ok ⟨0, 0, 1, 0⟩ ∧
    Stat (Run id (scenario.organizer false) (scenario.world scenario.installed)
        scenario.otherDisk).2.fs (Join ["home"] "a.txt") = some (Node.file [104, 105]) ∧
    Stat (Run id (scenario.organizer false) (scenario.world scenario.installed)
        scenario.otherDisk).2.fs (Join (Join ["home"] Documents) "a.txt") = none) ∧
    (ReadDir (scenario.world scenario.installed) scenario.writeProtected ["home"]
      = .ok [⟨"a.txt", false, ["home"], none⟩] ∧
    Stat scenario.writeProtected (Join ["home"] Documents) = none ∧
    (MkdirAll scenario.writeProtected ["home", "Documents"]).1 = some Errno.EACCES ∧
    (Run id (scenario.organizer false) (scenario.world scenario.installed)
        scenario.writeProtected).1 = .ok ⟨0, 0, 1, 0⟩ ∧
    Stat (Run id (scenario.organizer false) (scenario.world scenario.installed)
        scenario.writeProtected).2.fs (Join ["home"] "a.txt") = some (Node.file [104, 105]) ∧
    Stat (Run id (scenario.organizer false) (scenario.world scenario.installed)
        scenario.writeProtected).2.fs (Join (Join ["home"] Documents) "a.txt") = none) := by
  decide

/-- C5, amended. `DryRun` false, the program as `main` builds it, any order of the
workers. Let the eligible entries be those the scan hands to a worker (no directory,
name not beginning with `.`, name not the executable's base name). If for every
eligible entry `f` the path of its category directory `SourceDir/<Classify(f)>` is free
or a directory, nothing exists at `SourceDir/<Classify(f)>/f`, and the operating system
does not refuse the move of `f` from `SourceDir` into `SourceDir/<Classify(f)>`
(`renameRefused`: the two directories are on one file system, which is not mounted
read-only, and the process may write in both), then `Run` returns
`nil`, `FilesMoved` is the number of eligible entries, `FilesFailed` is `0`, and each
such `f`, a regular file before the run, is afterwards at `SourceDir/<Classify(f)>/f`
with its content and no longer at the top level. -/
theorem Run_moves_all (tbl : Char → Char) (order : List (String × List String)) (dir : Path)
    (verbose : Bool) (w : World) (fs : FS) (entries : List DirEntry)
    (hperm : order.Perm DefaultMappings) (hread : ReadDir w fs dir = .ok entries)
    (hcat : ∀ e ∈ entries, isSent w e = true →
      Stat fs (Join dir (Classify tbl (NewClassifier tbl order) e.name)) = none ∨
      Stat fs (Join dir (Classify tbl (NewClassifier tbl order) e.name)) = some Node.dir)
    (hfree : ∀ e ∈ entries, isSent w e = true →
      Stat fs (Join (Join dir (Classify tbl (NewClassifier tbl order) e.name)) e.name) = none)
    (hallowed : ∀ e ∈ entries, isSent w e = true →
      renameRefused fs.env (Join dir e.name)
        (Join (Join dir (Classify tbl (NewClassifier tbl order) e.name)) e.name) = none) :
    ∃ stats, (Run tbl (mkApp tbl order dir false verbose) w fs).1 = .ok stats ∧
      stats.FilesMoved = ((entries.filter (isSent w)).length : Nat) ∧
      stats.FilesFailed = 0 ∧
      ∀ e ∈ entries, isSent w e = true →
        (∃ d, Stat fs (Join dir e.name) = some (Node.file d)) ∧
        Stat (Run tbl (mkApp tbl order dir false verbose) w fs).2.fs
            (Join (Join dir (Classify tbl (NewClassifier tbl order) e.name)) e.name)
          = Stat fs (Join dir e.name) ∧
        Stat (Run tbl (mkApp tbl order dir false verbose) w fs).2.fs (Join dir e.name) = none := by
  have hread' : ReadDir w fs (mkApp tbl order dir false verbose).Config.SourceDir
      = .ok entries := hread
  obtain ⟨_, hent⟩ := ReadDir_spec w fs dir entries hread
  obtain ⟨ord, hordperm, hrun⟩ := Run_of_read tbl (mkApp tbl order dir false verbose) w fs
    entries hread'
  obtain ⟨ond, ospec, oall⟩ := order_spec (mkApp tbl order dir false verbose) w fs entries hread'
    ord hordperm
  have hcv := fun name => Classify_valid tbl order hperm name
  have hj2 : ∀ name : String, ValidName name →
      Join (Join dir (Classify tbl (NewClassifier tbl order) name)) name
        = dir ++ [Classify tbl (NewClassifier tbl order) name, name] := by
    intro name hv
    rw [Join_valid _ _ (hcv _), Join_valid _ _ hv]
    simp
  obtain ⟨m1, m2, m3, _⟩ := runOrder_moves tbl (mkApp tbl order dir false verbose) rfl hcv ord
    { fs := fs, stats := ⟨0, 0, 0, 0⟩, calls := [] } ond (fun x hx => (ospec x hx).2.2)
    (ReadDir_ok_dir w fs _ entries hread')
    (fun x hx => sent_isFile w fs dir entries hread _ (ospec x hx).1 (ospec x hx).2.1)
    (fun x hx d hd => by
      have hd' : Stat fs (dir ++ [Classify tbl (NewClassifier tbl order) x.2.info.name])
          = some (Node.file d) := hd
      have := hcat _ (ospec x hx).1 (ospec x hx).2.1
      rw [Join_valid _ _ (hcv _)] at this
      rcases this with h | h
      · rw [h] at hd'; cases hd'
      · rw [h] at hd'; cases hd')
    (fun x hx => by
      have := hfree _ (ospec x hx).1 (ospec x hx).2.1
      rw [hj2 _ (ospec x hx).2.2.2] at this
      exact this)
    (fun x hx => by
      have := hallowed _ (ospec x hx).1 (ospec x hx).2.1
      rw [hj2 _ (ospec x hx).2.2.2, Join_valid _ _ (ospec x hx).2.2.2] at this
      exact this)
  rw [hrun]
  refine ⟨_, rfl, ?_, ?_, ?_⟩
  · rw [m1]
    have h2 := hordperm.length_eq
    simp only [List.length_map] at h2
    rw [h2]
    unfold tasksOf
    rw [List.length_map]
    simp
  · rw [m2]
  · intro e he hsent
    obtain ⟨x, hx, hxe⟩ := oall e he hsent
    have hv := (hent e he).1
    obtain ⟨k1, k2⟩ := m3 x hx
    rw [hxe] at k1 k2
    rw [hj2 _ hv, Join_valid _ _ hv]
    exact ⟨sent_isFile w fs dir entries hread e he hsent, k1, k2⟩

/-- C5 (amended) on the end-to-end scenario: `report.pdf`, `photo.jpg`, `notes.txt`
and the hidden `.env`; three moved, none failed, each file in its category
directory. -/
theorem Run_moves_all_witness :
    ReadDir (scenario.world scenario.installed) scenario.endToEnd ["home"]
      = .ok [⟨"report.pdf", false, ["home"], none⟩, ⟨"photo.jpg", false, ["home"], none⟩,
             ⟨"notes.txt", false, ["home"], none⟩, ⟨".env", false, ["home"], none⟩] ∧
    ∃ stats, (Run id (mkApp id DefaultMappings ["home"] false false) (scenario.world scenario.installed)
        scenario.endToEnd).1 = .ok stats ∧ stats.FilesMoved = 3 ∧ stats.FilesFailed = 0 ∧
      Stat (Run id (mkApp id DefaultMappings ["home"] false false) (scenario.world scenario.installed)
        scenario.endToEnd).2.fs ["home", "Images", "photo.jpg"] = some (Node.file [255, 216]) ∧
      Stat (Run id (mkApp id DefaultMappings ["home"] false false) (scenario.world scenario.installed)
        scenario.endToEnd).2.fs ["home", "Documents", "report.pdf"]
          = some (Node.file [37, 80, 68, 70]) ∧
      Stat (Run id (mkApp id DefaultMappings ["home"] false false) (scenario.world scenario.installed)
        scenario.endToEnd).2.fs ["home", "Documents", "notes.txt"]
          = some (Node.file [104, 105, 10]) ∧
      Stat (Run id (mkApp id DefaultMappings ["home"] false false) (scenario.world scenario.installed)
        scenario.endToEnd).2.fs ["home", ".env"] = some (Node.file [65, 61, 49]) :=
  ⟨by decide,
   match Run_moves_all id DefaultMappings ["home"] false (scenario.world scenario.installed) scenario.endToEnd
      [⟨"report.pdf", false, ["home"], none⟩, ⟨"photo.jpg", false, ["home"], none⟩,
       ⟨"notes.txt", false, ["home"], none⟩, ⟨".env", false, ["home"], none⟩]
      (List.Perm.refl _) (by decide) (by decide) (by decide) (by decide) with
   | ⟨stats, h1, h2, h3, h4⟩ =>
     ⟨stats, h1, h2.trans (by decide), h3,
      (h4 ⟨"photo.jpg", false, ["home"], none⟩ (by decide) (by decide)).2.1.trans (by decide),
      (h4 ⟨"report.pdf", false, ["home"], none⟩ (by decide) (by decide)).2.1.trans (by decide),
      (h4 ⟨"notes.txt", false, ["home"], none⟩ (by decide) (by decide)).2.1.trans (by decide),
      by decide⟩⟩

/-- C6, the input on which the code fails. On a platform where `DirEntry.Info` is a
deferred `lstat` (Linux), a run without `DryRun` over a directory holding the one
five-byte file `a.txt` moves it to `Documents/a.txt` and reports `FilesMoved = 1`,
`TotalSize = 0`: `Info` is called after the move, on a path where the file no longer
is. With `DryRun`, or where the listing caches the `FileInfo`, the same directory
gives `TotalSize = 5`. -/
theorem TotalSize_after_move :
    (Run id (scenario.organizer false) (scenario.world scenario.installed) scenario.oneFile).1
      = .ok ⟨1, 0, 0, 0⟩ ∧
    Stat (Run id (scenario.organizer false) (scenario.world scenario.installed) scenario.oneFile).2.fs
        ["home", "Documents", "a.txt"] = some (Node.file [104, 101, 108, 108, 111]) ∧
    (Node.file [104, 101, 108, 108, 111]).size = 5 ∧
    (Run id (scenario.organizer true) (scenario.world scenario.installed) scenario.oneFile).1
      = .ok ⟨1, 0, 0, 5⟩ ∧
    (Run id (scenario.organizer false) { scenario.world scenario.installed with eagerInfo := true }
        scenario.oneFile).1 = .ok ⟨1, 0, 0, 5⟩ := by
  decide

end app
